import Mathlib

/-!
# Verification of the marv_node core (marv 3.2.0, Python 2.7)

Shallow embedding of `src/code/marv/marv_node/node.py`: node identity hashing
(`Node.genhash`), the input/stream specification model (`input`, `InputSpec`,
`StreamSpec`), dependency-graph construction (`Node.__init__`), `Node.clone`,
and the cooperative invocation protocol (`Node.invoke`).

Representation choices:
* Python objects that occur as spec values and keys (`None`, bools, ints,
  byte strings, tuples) are embedded as `PyObj`; tuples use the mutually
  inductive `PyList` so that all recursions stay structural.
* Nodes live in a construction-state registry `St : List NodeData`; a node is
  referred to by its index (Python object identity).  The mutable sets
  `deps` / `alldeps` / `consumers` / `dependent` are lists of indices, ordered
  but always read through membership.
* Fallible Python code (assert, KeyError-style failures) returns `Except Err`.
* The cooperative generator `Node.invoke` is embedded as a deterministic
  dialogue function: given the list of values the driver sends in (one per
  resumption), it returns the list of requests the invocation yields plus how
  the run ends (completed / still suspended / failed).
-/

namespace Marv

-- Python values that occur as `InputSpec` values and identity keys.
mutual
inductive PyObj : Type where
  | none : PyObj
  | bool : Bool → PyObj
  | int : Int → PyObj
  | str : String → PyObj
  | tuple : PyList → PyObj
  deriving DecidableEq
inductive PyList : Type where
  | nil : PyList
  | cons : PyObj → PyList → PyList
  deriving DecidableEq
end

def PyList.ofList : List PyObj → PyList
  | [] => .nil
  | x :: xs => .cons x (PyList.ofList xs)

def PyList.toList : PyList → List PyObj
  | .nil => []
  | .cons x xs => x :: PyList.toList xs

def PyList.len : PyList → Nat
  | .nil => 0
  | .cons _ xs => PyList.len xs + 1

/-- The single-quote character (written via its code point). -/
def sq : Char := Char.ofNat 39

/-- The double-quote character. -/
def dq : Char := Char.ofNat 34

def hexChar (n : Nat) : Char :=
  if n < 10 then Char.ofNat (48 + n) else Char.ofNat (87 + n)

/-- CPython 2.7 `string_repr` escaping of one character, given the chosen
quote character: the quote and backslash are backslash-escaped, `\t`, `\n`,
`\r` are named escapes, other non-printable bytes become `\xHH`. -/
def pyEscChar (quote c : Char) : List Char :=
  if c = quote ∨ c = Char.ofNat 92 then [Char.ofNat 92, c]
  else if c = Char.ofNat 9 then [Char.ofNat 92, Char.ofNat 116]
  else if c = Char.ofNat 10 then [Char.ofNat 92, Char.ofNat 110]
  else if c = Char.ofNat 13 then [Char.ofNat 92, Char.ofNat 114]
  else if c.toNat < 32 ∨ 126 < c.toNat then
    [Char.ofNat 92, Char.ofNat 120, hexChar (c.toNat / 16 % 16), hexChar (c.toNat % 16)]
  else [c]

/-- CPython 2.7 `repr` of a byte string: single quotes, unless the string
contains a single quote and no double quote. -/
def pyReprStr (s : String) : String :=
  let quote := if s.data.contains sq ∧ ¬ s.data.contains dq then dq else sq
  String.mk (quote :: s.data.flatMap (pyEscChar quote) ++ [quote])

-- CPython 2.7 `repr` of the embedded values; tuples print as
-- `()` / `(x,)` / `(a, b, ...)`.
mutual
def pyrepr : PyObj → String
  | .none => "None"
  | .bool b => if b then "True" else "False"
  | .int n => toString n
  | .str s => pyReprStr s
  | .tuple xs =>
      "(" ++ pyreprIn xs ++ (if xs.len = 1 then ",)" else ")")
def pyreprIn : PyList → String
  | .nil => ""
  | .cons x .nil => pyrepr x
  | .cons x (.cons y xs) => pyrepr x ++ ", " ++ pyreprIn (.cons y xs)
end

/-! ## SHA-256 and base32, as used by `Node.genhash`

`hashlib.sha256` over the ASCII bytes of the repr string, then
`base64.b32encode`, `.lower()`, and dropping the four `=` padding
characters. -/

def M32 : Nat := 4294967296

def rotr (n x : Nat) : Nat := ((x >>> n) ||| (x <<< (32 - n))) % M32

def toBytesBE (k n : Nat) : List Nat :=
  (List.range k).map fun i => n >>> (8 * (k - 1 - i)) % 256

/-- SHA-256 round constants (FIPS 180-4: the fractional parts of the cube
roots of the first 64 primes, scaled to 32 bits; written in decimal). -/
def shaK : List Nat :=
  [1116352408, 1899447441, 3049323471, 3921009573, 961987163, 1508970993,
   2453635748, 2870763221, 3624381080, 310598401, 607225278, 1426881987,
   1925078388, 2162078206, 2614888103, 3248222580, 3835390401, 4022224774,
   264347078, 604807628, 770255983, 1249150122, 1555081692, 1996064986,
   2554220882, 2821834349, 2952996808, 3210313671, 3336571891, 3584528711,
   113926993, 338241895, 666307205, 773529912, 1294757372, 1396182291,
   1695183700, 1986661051, 2177026350, 2456956037, 2730485921, 2820302411,
   3259730800, 3345764771, 3516065817, 3600352804, 4094571909, 275423344,
   430227734, 506948616, 659060556, 883997877, 958139571, 1322822218,
   1537002063, 1747873779, 1955562222, 2024104815, 2227730452, 2361852424,
   2428436474, 2756734187, 3204031479, 3329325298]

/-- Running state of the SHA-256 compression function. -/
structure Hash8 where
  a : Nat
  b : Nat
  c : Nat
  d : Nat
  e : Nat
  f : Nat
  g : Nat
  h : Nat

/-- SHA-256 initial state (the fractional parts of the square roots of the
first 8 primes, scaled to 32 bits; written in decimal). -/
def shaH0 : Hash8 :=
  ⟨1779033703, 3144134277, 1013904242, 2773480762,
   1359893119, 2600822924, 528734635, 1541459225⟩

def shaRound (st : Hash8) (kw : Nat × Nat) : Hash8 :=
  let s1 := rotr 6 st.e ^^^ rotr 11 st.e ^^^ rotr 25 st.e
  let ch := (st.e &&& st.f) ^^^ ((4294967295 ^^^ st.e) &&& st.g)
  let t1 := (st.h + s1 + ch + kw.1 + kw.2) % M32
  let s0 := rotr 2 st.a ^^^ rotr 13 st.a ^^^ rotr 22 st.a
  let mj := (st.a &&& st.b) ^^^ (st.a &&& st.c) ^^^ (st.b &&& st.c)
  let t2 := (s0 + mj) % M32
  ⟨(t1 + t2) % M32, st.a, st.b, st.c, (st.d + t1) % M32, st.e, st.f, st.g⟩

/-- Extend a 16-word message block by `k` further schedule words. -/
def shaExtend (w : List Nat) : Nat → List Nat
  | 0 => w
  | k + 1 =>
      let n := w.length
      let w15 := w.getD (n - 15) 0
      let w2 := w.getD (n - 2) 0
      let s0 := rotr 7 w15 ^^^ rotr 18 w15 ^^^ (w15 >>> 3)
      let s1 := rotr 17 w2 ^^^ rotr 19 w2 ^^^ (w2 >>> 10)
      shaExtend (w ++ [(w.getD (n - 16) 0 + s0 + w.getD (n - 7) 0 + s1) % M32]) k

/-- Split a byte list into 64-byte blocks (`fuel` bounds the recursion and is
instantiated with the list length). -/
def chunks (sz fuel : Nat) (l : List Nat) : List (List Nat) :=
  match fuel, l with
  | 0, _ => []
  | _, [] => []
  | f + 1, l => l.take sz :: chunks sz f (l.drop sz)

def blockWords (block : List Nat) : List Nat :=
  (List.range 16).map fun i =>
    (block.getD (4 * i) 0 <<< 24) ||| (block.getD (4 * i + 1) 0 <<< 16) |||
    (block.getD (4 * i + 2) 0 <<< 8) ||| block.getD (4 * i + 3) 0

def shaBlock (st : Hash8) (block : List Nat) : Hash8 :=
  let w := shaExtend (blockWords block) 48
  let c := (shaK.zip w).foldl shaRound st
  ⟨(st.a + c.a) % M32, (st.b + c.b) % M32, (st.c + c.c) % M32, (st.d + c.d) % M32,
   (st.e + c.e) % M32, (st.f + c.f) % M32, (st.g + c.g) % M32, (st.h + c.h) % M32⟩

/-- SHA-256 digest (32 bytes) of a byte list. -/
def sha256 (msg : List Nat) : List Nat :=
  let padded := msg ++ [128] ++ List.replicate ((119 - msg.length % 64) % 64) 0
    ++ toBytesBE 8 (msg.length * 8)
  let fin := (chunks 64 padded.length padded).foldl shaBlock shaH0
  [fin.a, fin.b, fin.c, fin.d, fin.e, fin.f, fin.g, fin.h].flatMap (toBytesBE 4)

/-- RFC 4648 base32 alphabet. -/
def b32Char (n : Nat) : Char :=
  if n < 26 then Char.ofNat (65 + n) else Char.ofNat (24 + n)

/-- Encode one 1..5-byte quantum into 8 characters including `=` padding. -/
def b32Quantum (bs : List Nat) : List Char :=
  let r := bs.length
  let p := bs ++ List.replicate (5 - r) 0
  let x := p.foldl (fun acc b => acc * 256 + b) 0
  let cs := (List.range 8).map fun i => b32Char (x >>> (35 - 5 * i) &&& 31)
  let keep := [0, 2, 4, 5, 7, 8].getD r 8
  cs.take keep ++ List.replicate (8 - keep) (Char.ofNat 61)

/-- `base64.b32encode` of a byte list. -/
def b32encode (bs : List Nat) : String :=
  String.mk ((chunks 5 bs.length bs).flatMap b32Quantum)

/-- Python `str.lower()` over ASCII. -/
def strLower (s : String) : String :=
  String.mk (s.data.map fun c =>
    if 65 ≤ c.toNat ∧ c.toNat ≤ 90 then Char.ofNat (c.toNat + 32) else c)

/-- The ASCII bytes of a repr string (all reprs produced here are ASCII). -/
def strBytes (s : String) : List Nat := s.data.map Char.toNat

/-- Python `s[:-4]`. -/
def dropLast4 (s : String) : String := String.mk (s.data.take (s.data.length - 4))

/-! ## Input / stream specification model -/

/-- Failure modes of the embedded fallible operations: Python AssertionError,
InputNameCollision, use of a node id absent from the registry, TypeError. -/
inductive Err : Type where
  | assertFail : Err
  | inputNameCollision : String → Err
  | missingNode : Err
  | typeError : Err
  deriving DecidableEq

/-- `StreamSpec`: reference to a specific output of another node, holding the
referenced node (by registry index), the optional stream name, and the `key`
tuple computed eagerly at construction as in the Python `__init__`. -/
structure StreamSpec where
  node : Nat
  sname : Option String
  key : PyObj
  deriving DecidableEq

/-- The value bound in an `InputSpec`: a plain Python object or a
`StreamSpec`.  A raw `Node` never appears here: `input` and `InputSpec.clone`
wrap nodes into `StreamSpec` on the way in (which the
`assert not isinstance(spec.value, Node)` in `invoke` re-checks). -/
inductive Value : Type where
  | plain : PyObj → Value
  | stream : StreamSpec → Value
  deriving DecidableEq

/-- `InputSpec`: one named input declaration. -/
structure InputSpec where
  name : String
  value : Value
  foreach : Bool
  deriving DecidableEq

/-- `InputSpec.key`: the tuple `(name, value.key if the value has a key
attribute else value, foreach)`; only `StreamSpec` values have a key. -/
def InputSpec.key (s : InputSpec) : PyObj :=
  .tuple (.cons (.str s.name)
    (.cons (match s.value with | .plain v => v | .stream ss => ss.key)
      (.cons (.bool s.foreach) .nil)))

/-- Identity and behavior of a computation function: its `__name__`, its
`__module__`, and its generator behavior used during Plain-Execution:
`gen inputs sent` is the value a generator instance bound to `inputs` yields
after the values `sent` have been sent into it, `Option.none` meaning the
instance raises StopIteration at that point. -/
structure FuncMeta where
  fname : String
  fmodule : String
  gen : List (String × PyObj) → List PyObj → Option PyObj

/-- The stored `Node.group` flag: `False`, `True`, or the string `ondemand`. -/
inductive GroupV : Type where
  | gfalse : GroupV
  | gtrue : GroupV
  | ondemand : GroupV
  deriving DecidableEq

/-- The per-node state built by `Node.__init__`.  `deps`, `alldeps`,
`consumers`, `dependent` are Python sets of nodes, embedded as lists of
registry indices read through membership. -/
structure NodeData where
  func : FuncMeta
  version : Option Int
  name : String
  namespc : String
  fullname : String
  specs_hash : String
  header_schema : Option PyObj
  schema : Option PyObj
  specs : List InputSpec
  group : GroupV
  keyOverride : Option String
  deps : List Nat
  alldeps : List Nat
  consumers : List Nat
  dependent : List Nat

/-- The construction state: all nodes constructed so far, a node being
identified by its index (Python object identity). -/
abbrev St := List NodeData

/-- The `Node.key` property: the `_key` override if set and truthy, else
`-`.join of `specs_hash` and `fullname`.  Nothing in node.py sets `_key`. -/
def NodeData.key (nd : NodeData) : String :=
  match nd.keyOverride with
  | some k => if k = "" then nd.specs_hash ++ "-" ++ nd.fullname else k
  | none => nd.specs_hash ++ "-" ++ nd.fullname

/-! ## Identity hashing (`Node.genhash`) -/

/-- Structural lexicographic comparison of character lists (the order of
Python byte strings restricted to ASCII). -/
def leChars : List Char → List Char → Bool
  | [], _ => true
  | _ :: _, [] => false
  | a :: as, b :: bs => if a = b then leChars as bs else decide (a < b)

/-- The string order used to compare canonical key representations. -/
def pyStrLe (a b : String) : Prop := leChars a.data b.data = true

instance : DecidableRel pyStrLe := fun _ _ =>
  inferInstanceAs (Decidable (_ = true))

/-- Modelled from the spec: the `Keyed` mixin (module `marv_node.mixins`,
which is not under src) is what makes `sorted(specs.values())` well defined;
per the spec it orders specs by a total order on their keys given by string
comparison of each key's canonical textual representation. -/
def specLe (a b : InputSpec) : Prop :=
  pyStrLe (pyrepr a.key) (pyrepr b.key)

instance : DecidableRel specLe := fun _ _ =>
  inferInstanceAs (Decidable (_ = true))

/-- `sorted(specs.values())` in `Node.genhash`. -/
def sortSpecs (specs : List InputSpec) : List InputSpec :=
  List.insertionSort specLe specs

/-- `Node.genhash`: sort the specs, take the tuple of their keys, and
base32-encode the SHA-256 of its repr, lower-cased, without the trailing
four padding characters. -/
def Node.genhash (specs : List InputSpec) : String :=
  let spec_keys := PyObj.tuple (PyList.ofList ((sortSpecs specs).map InputSpec.key))
  dropLast4 (strLower (b32encode (sha256 (strBytes (pyrepr spec_keys)))))

/-! ## Node construction (`Node.__init__`) and the dependency graph -/

/-- Registry lookup; Python would hold the object reference directly. -/
def getNode (st : St) (i : Nat) : Except Err NodeData :=
  match st[i]? with
  | some nd => .ok nd
  | none => .error .missingNode

/-- `StreamSpec.__init__`: key is `(node.key,)` when no stream name is given,
else `(node.key, name)`. -/
def mkStreamSpec (st : St) (nid : Nat) (sname : Option String) : Except Err StreamSpec :=
  match getNode st nid with
  | .error e => .error e
  | .ok nd =>
      let k := match sname with
        | Option.none => PyObj.tuple (.cons (.str nd.key) .nil)
        | some n => PyObj.tuple (.cons (.str nd.key) (.cons (.str n) .nil))
      .ok ⟨nid, sname, k⟩

/-- A Python value passed as an input default or clone override: another node
or a plain object. -/
inductive NodeOrObj : Type where
  | node : Nat → NodeOrObj
  | obj : PyObj → NodeOrObj

/-- `value = StreamSpec(value) if isinstance(value, Node) else value`. -/
def wrapValue (st : St) (v : NodeOrObj) : Except Err Value :=
  match v with
  | .obj o => .ok (.plain o)
  | .node nid =>
      match mkStreamSpec st nid Option.none with
      | .error e => .error e
      | .ok ss => .ok (.stream ss)

/-- A function being decorated: its metadata plus the `__marv_input_specs__`
ordered dict accumulated by `input` declarations (insertion order). -/
structure FuncDecl where
  func : FuncMeta
  specs : List InputSpec

/-- `value = foreach if foreach is not None else default` (so `None` when
neither is given). -/
def rawValue (default foreach : Option NodeOrObj) : NodeOrObj :=
  match foreach with
  | some v => v
  | Option.none =>
    match default with
    | some v => v
    | Option.none => .obj .none

/-- The `input(name, default, foreach)` decorator applied to a function:
asserts that a plain default and a foreach value are not both given, wraps a
node value into a `StreamSpec`, and attaches the spec to the function,
raising `InputNameCollision` if the name is already declared. -/
def inputDeco (st : St) (nm : String) (default foreach : Option NodeOrObj) (f : FuncDecl) :
    Except Err FuncDecl :=
  if default.isSome ∧ foreach.isSome then .error .assertFail
  else
    match wrapValue st (rawValue default foreach) with
    | .error e => .error e
    | .ok value =>
        let spec : InputSpec := ⟨nm, value, foreach.isSome⟩
        if spec.name ∈ f.specs.map InputSpec.name then .error (.inputNameCollision spec.name)
        else .ok { f with specs := f.specs ++ [spec] }

/-- The node referenced by a spec value, when the value is a StreamSpec. -/
def specRef (s : InputSpec) : Option Nat :=
  match s.value with
  | .stream ss => some ss.node
  | _ => Option.none

/-- `self.deps`: the set of nodes referenced by StreamSpec values,
`{x.value.node for x in self.specs.values() if isinstance(x.value, StreamSpec)}`. -/
def specDeps (specs : List InputSpec) : List Nat :=
  (specs.filterMap specRef).dedup

/-- The `x for dep in deps for x in dep.alldeps` generator feeding
`self.alldeps.update`. -/
def collectDepsAll (st : St) : List Nat → Except Err (List Nat)
  | [] => .ok []
  | d :: ds =>
    match getNode st d with
    | .error e => .error e
    | .ok nd =>
      match collectDepsAll st ds with
      | .error e => .error e
      | .ok rest => .ok (nd.alldeps ++ rest)

/-- `for dep in self.deps: assert self not in dep.consumers; dep.consumers.add(self)`. -/
def regConsumers (nid : Nat) : List Nat → St → Except Err St
  | [], st => .ok st
  | d :: ds, st =>
    match getNode st d with
    | .error e => .error e
    | .ok nd =>
      if nid ∈ nd.consumers then .error .assertFail
      else regConsumers nid ds (st.set d { nd with consumers := nd.consumers ++ [nid] })

/-- `for dep in self.alldeps: assert self not in dep.dependent; dep.dependent.add(self)`. -/
def regDependent (nid : Nat) : List Nat → St → Except Err St
  | [], st => .ok st
  | d :: ds, st =>
    match getNode st d with
    | .error e => .error e
    | .ok nd =>
      if nid ∈ nd.dependent then .error .assertFail
      else regDependent nid ds (st.set d { nd with dependent := nd.dependent ++ [nid] })

/-- The per-node record assembled by `Node.__init__` before edge
registration: `consumers` and `dependent` start empty, `_key` is never
set. -/
def initNodeData (func : FuncMeta) (schema header_schema : Option PyObj)
    (version : Option Int) (name namespc fullname specs_hash : String)
    (specs : List InputSpec) (group : GroupV) (deps alldeps : List Nat) : NodeData :=
  { func := func, version := version, name := name, namespc := namespc,
    fullname := fullname, specs_hash := specs_hash,
    header_schema := header_schema, schema := schema, specs := specs,
    group := group, keyOverride := Option.none, deps := deps,
    alldeps := alldeps, consumers := [], dependent := [] }

/-- `Node.__init__`: derive name, namespace, fullname and the specs hash,
store the spec table and group flag, compute `deps` and `alldeps`, and
register the new node with every dependency's `consumers` and every
transitive dependency's `dependent`, asserting each edge is new.  Returns
the id of the new node (appended at the end of the registry) and the updated
registry. -/
def nodeInit (st : St) (func : FuncMeta) (schema header_schema : Option PyObj)
    (version : Option Int) (nameArg nsArg : Option String)
    (specsArg : Option (List InputSpec)) (groupArg : Option GroupV) :
    Except Err (Nat × St) :=
  let name := nameArg.getD func.fname
  let namespc := nsArg.getD func.fmodule
  let fullname := if namespc = "" then name else namespc ++ ":" ++ name
  let specs := specsArg.getD []
  let specs_hash := Node.genhash specs
  let group := match groupArg with
    | some g => g
    | Option.none => if specs.any InputSpec.foreach then .gtrue else .gfalse
  let deps := specDeps specs
  match collectDepsAll st deps with
  | .error e => .error e
  | .ok extra =>
    let alldeps := (deps ++ extra).dedup
    let nid := st.length
    let nd := initNodeData func schema header_schema version name namespc fullname
      specs_hash specs group deps alldeps
    match regConsumers nid deps (st ++ [nd]) with
    | .error e => .error e
    | .ok st1 =>
      match regDependent nid alldeps st1 with
      | .error e => .error e
      | .ok st2 => .ok (nid, st2)

/-- The `node(schema, header, group, version)` decorator: finalize a declared
function into a Node.  The generator-function shape assert holds by typing
(`FuncMeta.gen` is generator behavior), and the convert-twice TypeError
cannot arise since a `FuncDecl` is not a Node. -/
def nodeDeco (st : St) (f : FuncDecl) (schema header : Option PyObj)
    (groupArg : Option GroupV) (version : Option Int) : Except Err (Nat × St) :=
  nodeInit st f.func schema header version Option.none Option.none (some f.specs) groupArg

/-! ## `Node.clone` -/

/-- `InputSpec.clone`: same name and foreach flag, new value, node values
wrapped into a `StreamSpec`. -/
def InputSpec.cloneSpec (st : St) (s : InputSpec) (v : NodeOrObj) : Except Err InputSpec :=
  match wrapValue st v with
  | .error e => .error e
  | .ok value => .ok ⟨s.name, value, s.foreach⟩

/-- The spec table of a clone: each spec whose name is overridden in `kw` is
cloned with the new value, the others are kept. -/
def cloneSpecsList (st : St) (kw : List (String × NodeOrObj)) :
    List InputSpec → Except Err (List InputSpec)
  | [] => .ok []
  | s :: rest =>
    match (match kw.lookup s.name with
           | some v => InputSpec.cloneSpec st s v
           | Option.none => .ok s) with
    | .error e => .error e
    | .ok s2 =>
      match cloneSpecsList st kw rest with
      | .error e => .error e
      | .ok r2 => .ok (s2 :: r2)

/-- `Node.clone(**kw)`: rebuild the spec table with the overridden values,
assert every override key matched an existing spec name (`assert not kw`
after the pops), and construct a fresh node from the function with only
`schema`, `header_schema` and the new specs carried over. -/
def cloneNode (st : St) (nid : Nat) (kw : List (String × NodeOrObj)) :
    Except Err (Nat × St) :=
  match getNode st nid with
  | .error e => .error e
  | .ok nd =>
    match cloneSpecsList st kw nd.specs with
    | .error e => .error e
    | .ok specs =>
      if kw.all (fun p => nd.specs.any (fun s => s.name == p.1)) then
        nodeInit st nd.func nd.schema nd.header_schema Option.none Option.none Option.none
          (some specs) Option.none
      else .error .assertFail

/-! ## The invocation protocol (`Node.invoke`)

`invoke` is a Python generator: it suspends at every `yield`, handing a
request to the external driver, and is resumed with the driver's answer.  It
is embedded as a deterministic dialogue: given the finite list of answer
values the driver sends in (one consumed per resumed yield), return the
requests yielded in order and how the run ends. -/

/-- The request vocabulary yielded to the driver: `get_stream(*args)`,
`get_logger()`, `pull(handle)`, `fork(label, inputs, group)`, plus whatever
value the wrapped user routine yields during Plain-Execution. -/
inductive Req : Type where
  | getStream : Nat → Option String → Req
  | getLogger : Req
  | pull : PyObj → Req
  | fork : String → List (String × PyObj) → Bool → Req
  | fromFunc : PyObj → Req
  deriving DecidableEq

/-- How a run against a finite response list ends: the invoke generator
raised StopIteration; or it is still suspended at a yield with all responses
consumed; or a Python-level error was raised. -/
inductive Outcome : Type where
  | finished : Outcome
  | suspended : Outcome
  | failed : Err → Outcome
  deriving DecidableEq

/-- A Python dict of input bindings, embedded as an association list with
dict update semantics (`dset` overwrites in place or appends). -/
abbrev Bindings := List (String × PyObj)

def dset (d : Bindings) (k : String) (v : PyObj) : Bindings :=
  if d.any (fun p => decide (p.1 = k)) then d.map fun p => if p.1 = k then (k, v) else p
  else d ++ [(k, v)]

/-- Python dict read `d[k]` (first, hence unique, binding of `k`). -/
def dlookup (d : Bindings) (k : String) : Option PyObj :=
  match d with
  | [] => Option.none
  | p :: rest => if p.1 = k then some p.2 else dlookup rest k

def dictOf (ps : List (String × PyObj)) : Bindings :=
  ps.foldl (fun d p => dset d p.1 p.2) []

def dupd (d : Bindings) (ps : List (String × PyObj)) : Bindings :=
  ps.foldl (fun d p => dset d p.1 p.2) d

/-- Result of the input-resolution phase: either the run already ended
(responses exhausted at a `get_stream` yield), or the `common`,
`foreach_plain`, `foreach_stream` buckets plus the remaining responses. -/
inductive Phase1 : Type where
  | stop : Outcome → Phase1
  | go : List (String × PyObj) → List (String × PyObj) → List (String × PyObj) →
      List PyObj → Phase1

/-- The `for spec in self.specs.values()` resolution loop: a `StreamSpec`
value yields `get_stream(*spec.value.args)` and the answer lands in
`foreach_stream` or `common` by the foreach flag; a plain value lands in
`foreach_plain` or `common` directly.  The
`assert not isinstance(spec.value, Node)` holds by typing: `Value` has no
node constructor. -/
def resolveSpecs (common fp fs : List (String × PyObj)) :
    List InputSpec → List PyObj → List Req × Phase1
  | [], resps => ([], .go common fp fs resps)
  | spec :: rest, resps =>
    match spec.value with
    | .stream ss =>
        let req := Req.getStream ss.node ss.sname
        match resps with
        | [] => ([req], .stop .suspended)
        | h :: rt =>
          let next :=
            if spec.foreach then resolveSpecs common fp (fs ++ [(spec.name, h)]) rest rt
            else resolveSpecs (common ++ [(spec.name, h)]) fp fs rest rt
          (req :: next.1, next.2)
    | .plain v =>
        if spec.foreach then resolveSpecs common (fp ++ [(spec.name, v)]) fs rest resps
        else resolveSpecs (common ++ [(spec.name, v)]) fp fs rest resps

/-- Python iteration over a plain foreach value: tuples and strings iterate,
anything else raises TypeError when `product` evaluates its arguments. -/
def pyIter : PyObj → Option (List PyObj)
  | .tuple xs => some xs.toList
  | .str s => some (s.data.map fun c => .str (String.mk [c]))
  | _ => Option.none

/-- `[[(k, x) for x in v] for k, v in foreach_plain]`. -/
def mkAxes : List (String × PyObj) → Option (List (List (String × PyObj)))
  | [] => some []
  | (k, v) :: rest =>
    match pyIter v with
    | Option.none => Option.none
    | some xs =>
      match mkAxes rest with
      | Option.none => Option.none
      | some rest2 => some (xs.map (fun x => (k, x)) :: rest2)

/-- `itertools.product`: full cross product, rightmost axis varying fastest. -/
def crossProd {α : Type} : List (List α) → List (List α)
  | [] => [[]]
  | ax :: rest => ax.flatMap fun x => (crossProd rest).map fun c => x :: c

/-- The Fanout-Plain loop: `for i, inputs in enumerate(cross)` merges each
combination under the common bindings and yields `fork(str(i), inputs, False)`;
after the last combination the generator runs off its end. -/
def forkPlain (common : List (String × PyObj)) :
    List (List (String × PyObj)) → Nat → List PyObj → List Req × Outcome
  | [], _, _ => ([], .finished)
  | combo :: rest, i, resps =>
    let inputs := dupd (dictOf combo) common
    let req := Req.fork (toString i) inputs false
    match resps with
    | [] => ([req], .suspended)
    | _ :: rt =>
      let next := forkPlain common rest (i + 1) rt
      (req :: next.1, next.2)

/-- The inner `for inputs in cross` loop of Fanout-Stream: one fork per
precomputed combination, each carrying the combination merged under the
common bindings with the pulled value bound to the stream input name, the
label drawn from the global `count()` index.  Returns the requests, the
advanced index, and the remaining responses (`Option.none` when they ran
out at a fork yield). -/
def forkEach (common : List (String × PyObj)) (sname : String) (v : PyObj) :
    List (List (String × PyObj)) → Nat → List PyObj →
    List Req × Nat × Option (List PyObj)
  | [], idx, resps => ([], idx, some resps)
  | combo :: rest, idx, resps =>
    let inputs := dset (dupd (dictOf combo) common) sname v
    let req := Req.fork (toString idx) inputs false
    match resps with
    | [] => ([req], idx + 1, Option.none)
    | _ :: rt =>
      let next := forkEach common sname v rest (idx + 1) rt
      (req :: next.1, next.2.1, next.2.2)

/-- The `while True` pull loop of Fanout-Stream: yield `pull(stream)`; a
`None` answer breaks the loop and the generator runs off its end; any other
answer fans out over the precomputed combinations and the loop repeats.
Each iteration consumes at least one response, so the `fuel` parameter
(instantiated with one more than the number of responses in `invokeTrace`)
never reaches zero. -/
def pullLoop (stream : PyObj) (cross : List (List (String × PyObj)))
    (common : List (String × PyObj)) (sname : String) :
    Nat → Nat → List PyObj → List Req × Outcome
  | 0, _, _ => ([], .suspended)
  | fuel + 1, idx, resps =>
    let req := Req.pull stream
    match resps with
    | [] => ([req], .suspended)
    | v :: rest =>
      if v = .none then ([req], .finished)
      else
        match forkEach common sname v cross idx rest with
        | (rs, idx2, some rem) =>
          let next := pullLoop stream cross common sname fuel idx2 rem
          (req :: rs ++ next.1, next.2)
        | (rs, _, Option.none) => (req :: rs, .suspended)

/-- The Plain-Execution relay.  `gen = self.func(**inputs)` then
`send = yield gen.send(send)` forever.  In Python 2.7 the StopIteration
raised by `gen.send` when the routine terminates is not caught anywhere in
`invoke`, so it propagates and ends the invoke generator itself: the outer
`while True` that would build a fresh `gen` is unreachable after the first
iteration. -/
def relay (g : List PyObj → Option PyObj) :
    List PyObj → List PyObj → List Req × Outcome
  | hist, resps =>
    match g hist with
    | Option.none => ([], .finished)
    | some y =>
      match resps with
      | [] => ([Req.fromFunc y], .suspended)
      | r :: rest =>
        let next := relay g (hist ++ [r]) rest
        (Req.fromFunc y :: next.1, next.2)

/-- `Node.invoke(inputs=None)` as a dialogue against a finite response list.
With explicit inputs the resolution phase is bypassed; otherwise the specs
are resolved and classified.  Any foreach input sends the run into fan-out
(logger handle first, then fork requests only); otherwise the user routine
is started on the bound inputs and relayed. -/
def invokeTrace (st : St) (nid : Nat) (inputsOpt : Option Bindings) (resps : List PyObj) :
    List Req × Outcome :=
  match st[nid]? with
  | Option.none => ([], .failed .missingNode)
  | some nd =>
    let ph := match inputsOpt with
      | some _ => (([] : List Req), Phase1.go [] [] [] resps)
      | Option.none => resolveSpecs [] [] [] nd.specs resps
    match ph with
    | (reqs1, .stop oc) => (reqs1, oc)
    | (reqs1, .go common fp fs rest) =>
      if fp ≠ [] ∨ fs ≠ [] then
        match rest with
        | [] => (reqs1 ++ [Req.getLogger], .suspended)
        | _ :: rest2 =>
          match mkAxes fp with
          | Option.none => (reqs1 ++ [Req.getLogger], .failed .typeError)
          | some axs =>
            let cross := crossProd axs
            match fs with
            | [] =>
              let f := forkPlain common cross 0 rest2
              (reqs1 ++ Req.getLogger :: f.1, f.2)
            | [(sname, stream)] =>
              let p := pullLoop stream cross common sname (rest2.length + 1) 0 rest2
              (reqs1 ++ Req.getLogger :: p.1, p.2)
            | _ => (reqs1 ++ [Req.getLogger], .failed .assertFail)
      else
        let bindings := match inputsOpt with
          | some i => i
          | Option.none => dictOf common
        let r := relay (nd.func.gen bindings) [] rest
        (reqs1 ++ r.1, r.2)

/-! ## Derived views of a spec table (statement side)

These definitions restate, as standalone functions of the spec table and the
response list, what the resolution loop of `invoke` computes; the lemma
`resolveSpecs_run` below proves the correspondence. -/

def isStreamV : Value → Bool
  | .stream _ => true
  | .plain _ => false

/-- Number of stream-valued specs, i.e. of get_stream yields during
resolution. -/
def streamCount (specs : List InputSpec) : Nat :=
  (specs.filter fun s => isStreamV s.value).length

/-- The get_stream requests emitted by the resolution phase, in spec order. -/
def streamReqs (specs : List InputSpec) : List Req :=
  specs.filterMap fun s =>
    match s.value with
    | .stream ss => some (Req.getStream ss.node ss.sname)
    | .plain _ => Option.none

/-- The `common` / `foreach_plain` / `foreach_stream` buckets built by the
resolution loop, given the driver responses (stream handles, consumed in
spec order). -/
def classify : List InputSpec → List PyObj →
    List (String × PyObj) × List (String × PyObj) × List (String × PyObj)
  | [], _ => ([], [], [])
  | spec :: rest, resps =>
    match spec.value with
    | .stream _ =>
      match resps with
      | [] => ([], [], [])
      | h :: rt =>
        let r := classify rest rt
        if spec.foreach then (r.1, r.2.1, (spec.name, h) :: r.2.2)
        else ((spec.name, h) :: r.1, r.2.1, r.2.2)
    | .plain v =>
      let r := classify rest resps
      if spec.foreach then (r.1, (spec.name, v) :: r.2.1, r.2.2)
      else ((spec.name, v) :: r.1, r.2.1, r.2.2)

/-- The `foreach_plain` bucket, which does not depend on the responses. -/
def fpOf (specs : List InputSpec) : List (String × PyObj) :=
  specs.filterMap fun s =>
    if s.foreach then
      match s.value with
      | .plain v => some (s.name, v)
      | .stream _ => Option.none
    else Option.none

/-- Number of foreach-stream inputs. -/
def fsCount (specs : List InputSpec) : Nat :=
  (specs.filter fun s => s.foreach && isStreamV s.value).length

/-- The separator-joined concatenation a Python tuple repr puts between its
element reprs. -/
def interStr : List String → String
  | [] => ""
  | [s] => s
  | s :: t :: r => s ++ ", " ++ interStr (t :: r)

/-- The fields of a node that the edge-registration loops never touch
(everything but `consumers` and `dependent`). -/
def coreView (nd : NodeData) :=
  (nd.func, nd.version, nd.name, nd.namespc, nd.fullname, nd.specs_hash,
   nd.header_schema, nd.schema, nd.specs, nd.group, nd.keyOverride, nd.deps,
   nd.alldeps)

/-- Bounds invariant of the construction state: every node's `deps` and
`alldeps` point strictly earlier (to already-constructed nodes), its
`consumers` and `dependent` strictly later but within the registry. -/
def GraphInv (st : St) : Prop :=
  ∀ (i : Nat) (nd : NodeData), st[i]? = some nd →
    (∀ j ∈ nd.deps, j < i) ∧ (∀ j ∈ nd.alldeps, j < i) ∧
    (∀ j ∈ nd.consumers, i < j ∧ j < st.length) ∧
    (∀ j ∈ nd.dependent, i < j ∧ j < st.length)

/-- Construction sequences in which every dependency passed to a
construction references an already fully constructed node of the current
registry. -/
inductive Reachable : St → Prop where
  | nil : Reachable []
  | step {st st2 : St} {func : FuncMeta} {schema hs : Option PyObj} {ver : Option Int}
      {na ns : Option String} {specsArg : Option (List InputSpec)} {ga : Option GroupV}
      {nid : Nat} :
      Reachable st →
      (∀ d ∈ specDeps (specsArg.getD []), d < st.length) →
      nodeInit st func schema hs ver na ns specsArg ga = .ok (nid, st2) →
      Reachable st2

/-- The label a fork request carries (empty for other requests). -/
def reqLabel : Req → String
  | .fork l _ _ => l
  | _ => ""

def isFork : Req → Bool
  | .fork _ _ _ => true
  | _ => false

/-- The fork requests of one full Fanout-Plain run: one per cross-product
combination in enumeration order, labels counting up from `i`, each carrying
the combination merged under the common bindings and the not-a-group flag. -/
def plainForks (common : List (String × PyObj)) (i : Nat) :
    List (List (String × PyObj)) → List Req
  | [] => []
  | combo :: rest =>
      Req.fork (toString i) (dupd (dictOf combo) common) false ::
        plainForks common (i + 1) rest

/-- The fork requests emitted for one pulled stream value in Fanout-Stream:
one per precomputed combination, labels counting up from the global index
`i`, each merging common bindings, the combination, and the pulled value `v`
bound to the stream input's name. -/
def eachForks (common : List (String × PyObj)) (sname : String) (v : PyObj) (i : Nat) :
    List (List (String × PyObj)) → List Req
  | [] => []
  | combo :: rest =>
      Req.fork (toString i) (dset (dupd (dictOf combo) common) sname v) false ::
        eachForks common sname v (i + 1) rest

/-- The requests of one full Fanout-Stream run over the pulled values `vs`
(all non-sentinel): each pull request is followed by the fan-out for its
value, and one final pull is answered by the sentinel, ending the run with
no further fork. -/
def pullSection (stream : PyObj) (cross : List (List (String × PyObj)))
    (common : List (String × PyObj)) (sname : String) (i : Nat) :
    List PyObj → List Req
  | [] => [Req.pull stream]
  | v :: vs =>
      Req.pull stream :: (eachForks common sname v i cross ++
        pullSection stream cross common sname (i + cross.length) vs)

/-! ## Concrete scenario data used by witnesses and counterexamples -/

/-- A user routine that yields one request and then terminates:
used to exercise the Plain-Execution relay. -/
def genOnce : List (String × PyObj) → List PyObj → Option PyObj :=
  fun _ sent => if sent.length = 0 then some (.str "REQ") else Option.none

def funcOnce : FuncMeta := ⟨"f2", "m", genOnce⟩

/-- A source node with no inputs (dependency target for stream specs). -/
def funcSrc : FuncMeta := ⟨"src", "m", fun _ _ => Option.none⟩

/-- Registry holding just the no-input node built by `funcOnce`. -/
def stOnce : St :=
  match nodeInit [] funcOnce Option.none Option.none Option.none Option.none Option.none
      Option.none Option.none with
  | .ok p => p.2
  | .error _ => []

/-- Registry holding just the no-input source node. -/
def stSrc : St :=
  match nodeInit [] funcSrc Option.none Option.none Option.none Option.none Option.none
      Option.none Option.none with
  | .ok p => p.2
  | .error _ => []

/-- Two foreach-stream inputs on one node, both referencing the source node. -/
def specsTwoStreams : List InputSpec :=
  [⟨"s1", .stream ⟨0, Option.none, .tuple (.cons (.str "k0") .nil)⟩, true⟩,
   ⟨"s2", .stream ⟨0, Option.none, .tuple (.cons (.str "k0") .nil)⟩, true⟩]

/-- Registry with the source node and a node with two foreach-stream inputs
(whose construction went through). -/
def stTwo : St :=
  match nodeInit stSrc funcOnce Option.none Option.none Option.none Option.none Option.none
      (some specsTwoStreams) Option.none with
  | .ok p => p.2
  | .error _ => []

/-- One common input and two foreach-plain axes of sizes 2 and 3. -/
def specsAxes : List InputSpec :=
  [⟨"a", .plain (.int 7), false⟩,
   ⟨"x", .plain (.tuple (.cons (.int 1) (.cons (.int 2) .nil))), true⟩,
   ⟨"y", .plain (.tuple (.cons (.int 10) (.cons (.int 20) (.cons (.int 30) .nil)))), true⟩]

/-- Registry holding just a node with the `specsAxes` inputs. -/
def stAxes : St :=
  match nodeInit [] funcOnce Option.none Option.none Option.none Option.none Option.none
      (some specsAxes) Option.none with
  | .ok p => p.2
  | .error _ => []

/-- One foreach-plain axis of size 2 plus one foreach-stream input. -/
def specsStream : List InputSpec :=
  [⟨"x", .plain (.tuple (.cons (.int 1) (.cons (.int 2) .nil))), true⟩,
   ⟨"s", .stream ⟨0, Option.none, .tuple (.cons (.str "k0") .nil)⟩, true⟩]

/-- A corrupted one-node registry whose node already lists the next fresh id
(1) among its consumers, exercising the duplicate-edge assertion. -/
def ndCorrupt : NodeData :=
  { func := funcSrc, version := Option.none, name := "src", namespc := "m",
    fullname := "m:src", specs_hash := "", header_schema := Option.none,
    schema := Option.none, specs := [], group := .gfalse,
    keyOverride := Option.none, deps := [], alldeps := [], consumers := [1],
    dependent := [] }

/-- A corrupted one-node registry whose node has clean `consumers` but
already lists the next fresh id (1) in `dependent`, exercising the
duplicate-edge assertion of the second registration loop. -/
def ndCorrupt2 : NodeData :=
  { func := funcSrc, version := Option.none, name := "src", namespc := "m",
    fullname := "m:src", specs_hash := "", header_schema := Option.none,
    schema := Option.none, specs := [], group := .gfalse,
    keyOverride := Option.none, deps := [], alldeps := [], consumers := [],
    dependent := [1] }

/-- Registry with the source node and a node with the `specsStream` inputs. -/
def stStream : St :=
  match nodeInit stSrc funcOnce Option.none Option.none Option.none Option.none Option.none
      (some specsStream) Option.none with
  | .ok p => p.2
  | .error _ => []

/-- The name component (`key[0]`) of an `InputSpec.key` tuple. -/
def keyName : PyObj → Option String
  | .tuple (.cons (.str n) _) => some n
  | _ => Option.none

/-- The node stored in `stAxes` (the fallback is unreachable). -/
def ndAxes0 : NodeData :=
  match stAxes[0]? with
  | some nd => nd
  | Option.none => ndCorrupt

/-- Clone overrides replacing the common input `a` by the plain value 99. -/
def kwOver : List (String × NodeOrObj) := [("a", .obj (.int 99))]

/-- Registry after cloning the `stAxes` node with the `kwOver` overrides. -/
def stClone : St :=
  match cloneNode stAxes 0 kwOver with
  | .ok p => p.2
  | .error _ => []

/-- The clone produced in `stClone` (the fallback is unreachable). -/
def ndClone1 : NodeData :=
  match stClone[1]? with
  | some nd => nd
  | Option.none => ndCorrupt

/-- Registry holding a node built with explicit version, name, namespace and
group arguments (and the `specsAxes` inputs). -/
def stCustom : St :=
  match nodeInit [] funcOnce Option.none Option.none (some 3) (some "cname") (some "cns")
      (some specsAxes) (some .ondemand) with
  | .ok p => p.2
  | .error _ => []

/-- The node stored in `stCustom` (the fallback is unreachable). -/
def ndCustom0 : NodeData :=
  match stCustom[0]? with
  | some nd => nd
  | Option.none => ndCorrupt

/-- Registry after cloning the `stCustom` node with no overrides. -/
def stCustomClone : St :=
  match cloneNode stCustom 0 [] with
  | .ok p => p.2
  | .error _ => []

/-- The clone produced in `stCustomClone` (the fallback is unreachable). -/
def ndCClone1 : NodeData :=
  match stCustomClone[1]? with
  | some nd => nd
  | Option.none => ndCorrupt

/-! ## Lemmas and claim theorems -/

/-- C6: declaring two inputs with the same name on one computation function
raises InputNameCollision at declaration time, surfaced to the caller (here:
provided the declaration itself is otherwise well formed, i.e. default and
foreach are not both given and a node value references an existing node). -/
theorem claim_C6 (st : St) (nm : String) (default foreach : Option NodeOrObj)
    (f : FuncDecl) (hboth : ¬ (default.isSome ∧ foreach.isSome))
    (hwrap : ∃ val, wrapValue st (rawValue default foreach) = .ok val)
    (hdup : nm ∈ f.specs.map InputSpec.name) :
    inputDeco st nm default foreach f = .error (.inputNameCollision nm) := by
  obtain ⟨val, hv⟩ := hwrap
  simp only [inputDeco, if_neg hboth, hv]
  simp [hdup]

/-- Witness for C6 at a concrete input: a second declaration of `a`. -/
theorem claim_C6_witness :
    inputDeco [] "a" (some (.obj (.int 2))) Option.none
      ⟨funcSrc, [⟨"a", .plain (.int 1), false⟩]⟩ = .error (.inputNameCollision "a") :=
  claim_C6 [] "a" (some (.obj (.int 2))) Option.none
    ⟨funcSrc, [⟨"a", .plain (.int 1), false⟩]⟩ (by decide) ⟨.plain (.int 2), rfl⟩
    (by simp)

/-- C2, evaluated at the failing input: a node with no foreach inputs whose
routine yields once and then terminates, invoked with explicit inputs and two
driver responses in reserve.  The invocation relays the single yield and then
ends (Python 2 lets the StopIteration of `gen.send` propagate out of
`invoke`), leaving the second response unconsumed — it does not restart the
routine, although a fresh routine instance bound to the same inputs would
yield again (second conjunct). -/
theorem claim_C2 :
    invokeTrace stOnce 0 (some [("a", PyObj.int 1)]) [PyObj.int 5, PyObj.int 6] =
      ([Req.fromFunc (.str "REQ")], .finished) ∧
    genOnce [("a", PyObj.int 1)] [] = some (.str "REQ") := by
  exact ⟨rfl, rfl⟩

/-- The resolution loop computes the stream requests and the three buckets
described by `streamReqs` and `classify`, consuming one response per stream
spec, provided enough responses are available. -/
theorem resolveSpecs_run :
    ∀ (specs : List InputSpec) (resps : List PyObj) (common fp fs : List (String × PyObj)),
    streamCount specs ≤ resps.length →
    resolveSpecs common fp fs specs resps =
      (streamReqs specs,
       .go (common ++ (classify specs resps).1) (fp ++ (classify specs resps).2.1)
          (fs ++ (classify specs resps).2.2) (resps.drop (streamCount specs)))
  | [], resps, common, fp, fs, _ => by
      simp [resolveSpecs, streamReqs, classify, streamCount]
  | spec :: rest, resps, common, fp, fs, h => by
      match hv : spec.value with
      | .plain v =>
        have hc : streamCount (spec :: rest) = streamCount rest := by
          simp [streamCount, List.filter, hv, isStreamV]
        rw [hc] at h
        have ih := resolveSpecs_run rest resps
        by_cases hf : spec.foreach
        · simp only [resolveSpecs, hv, hf, if_pos, classify, streamReqs, List.filterMap_cons]
          rw [ih _ _ _ (by omega), hc]
          simp [hf, List.append_assoc, streamReqs, classify]
        · simp only [resolveSpecs, hv, classify, streamReqs, List.filterMap_cons]
          rw [if_neg hf, ih _ _ _ (by omega), hc]
          simp [hf, List.append_assoc, streamReqs, classify]
      | .stream ss =>
        have hc : streamCount (spec :: rest) = streamCount rest + 1 := by
          simp [streamCount, List.filter, hv, isStreamV]
        match resps with
        | [] => exact absurd (hc ▸ h) (by simp)
        | hd :: rt =>
          have hle : streamCount rest ≤ rt.length := by
            rw [hc] at h; simpa using h
          have ih := resolveSpecs_run rest rt
          by_cases hf : spec.foreach
          · simp only [resolveSpecs, hv, hf, classify, streamReqs, List.filterMap_cons]
            rw [ih _ _ _ hle, hc]
            simp [hf, List.append_assoc, streamReqs, classify]
          · simp only [resolveSpecs, hv, classify, streamReqs, List.filterMap_cons]
            rw [if_neg hf, ih _ _ _ hle, hc]
            simp [hf, List.append_assoc, streamReqs, classify]

/-- The foreach_stream bucket has one entry per foreach-stream spec. -/
theorem classify_fs_length :
    ∀ (specs : List InputSpec) (resps : List PyObj),
    streamCount specs ≤ resps.length →
    (classify specs resps).2.2.length = fsCount specs
  | [], _, _ => by simp [classify, fsCount]
  | spec :: rest, resps, h => by
      match hv : spec.value with
      | .plain v =>
        have hc : streamCount (spec :: rest) = streamCount rest := by
          simp [streamCount, List.filter, hv, isStreamV]
        rw [hc] at h
        have ih := classify_fs_length rest resps h
        by_cases hf : spec.foreach <;>
          simp [classify, hv, hf, fsCount, List.filter, isStreamV] <;>
          simpa [fsCount] using ih
      | .stream ss =>
        have hc : streamCount (spec :: rest) = streamCount rest + 1 := by
          simp [streamCount, List.filter, hv, isStreamV]
        match resps with
        | [] => exact absurd (hc ▸ h) (by simp)
        | hd :: rt =>
          have hle : streamCount rest ≤ rt.length := by
            rw [hc] at h; simpa using h
          have ih := classify_fs_length rest rt hle
          by_cases hf : spec.foreach <;>
            simp [classify, hv, hf, fsCount, List.filter, isStreamV] <;>
            simpa [fsCount] using ih

/-- The foreach_plain bucket is `fpOf`, independent of the responses. -/
theorem classify_fp_eq :
    ∀ (specs : List InputSpec) (resps : List PyObj),
    streamCount specs ≤ resps.length →
    (classify specs resps).2.1 = fpOf specs
  | [], _, _ => by simp [classify, fpOf]
  | spec :: rest, resps, h => by
      match hv : spec.value with
      | .plain v =>
        have hc : streamCount (spec :: rest) = streamCount rest := by
          simp [streamCount, List.filter, hv, isStreamV]
        rw [hc] at h
        have ih := classify_fp_eq rest resps h
        by_cases hf : spec.foreach <;>
          simp [classify, hv, hf, fpOf, List.filterMap_cons, ih]
      | .stream ss =>
        have hc : streamCount (spec :: rest) = streamCount rest + 1 := by
          simp [streamCount, List.filter, hv, isStreamV]
        match resps with
        | [] => exact absurd (hc ▸ h) (by simp)
        | hd :: rt =>
          have hle : streamCount rest ≤ rt.length := by
            rw [hc] at h; simpa using h
          have ih := classify_fp_eq rest rt hle
          by_cases hf : spec.foreach <;>
            simp [classify, hv, hf, fpOf, List.filterMap_cons, ih]

/-- The Plain-Execution relay never raises: it either runs out of driver
responses (still suspended) or ends through StopIteration. -/
theorem relay_no_fail (g : List PyObj → Option PyObj) :
    ∀ (resps hist : List PyObj), (relay g hist resps).2 = .finished ∨
      (relay g hist resps).2 = .suspended
  | [], hist => by
      match hg : g hist with
      | Option.none => simp [relay, hg]
      | some y => simp [relay, hg]
  | r :: rest, hist => by
      have ih := relay_no_fail g rest (hist ++ [r])
      rw [relay]
      match hg : g hist with
      | Option.none => simp
      | some y => simpa using ih

/-- Counterexample to C5 as stated: a node whose specs contain two
foreach-stream inputs (first conjunct) is nevertheless constructed without
any error (second conjunct) — the more-than-one-foreach-stream check does not
run at construction time. -/
theorem claim_C5_counterexample :
    fsCount specsTwoStreams = 2 ∧
    (nodeInit stSrc funcOnce Option.none Option.none Option.none Option.none Option.none
      (some specsTwoStreams) Option.none).toOption.isSome = true :=
  ⟨rfl, rfl⟩

/-- C5 amended: a node with more than one foreach-stream input fails fast
with the assertion error at its first invocation that resolves inputs (given
enough driver responses to reach the fan-out decision and foreach-plain
values that survive `product`); an invocation bypassing resolution through
explicit inputs never hits that assertion. -/
theorem claim_C5_amended (st : St) (nid : Nat) (nd : NodeData) (resps : List PyObj)
    (hnd : st[nid]? = some nd)
    (hfs : 2 ≤ fsCount nd.specs)
    (hresp : streamCount nd.specs + 1 ≤ resps.length)
    (haxes : mkAxes (fpOf nd.specs) ≠ Option.none) :
    (invokeTrace st nid Option.none resps).2 = .failed .assertFail ∧
    ∀ inputs, (invokeTrace st nid (some inputs) resps).2 ≠ .failed .assertFail := by
  have hsc : streamCount nd.specs ≤ resps.length := by omega
  have hrun := resolveSpecs_run nd.specs resps [] [] [] hsc
  have hfsl := classify_fs_length nd.specs resps hsc
  have hfpe := classify_fp_eq nd.specs resps hsc
  obtain ⟨axs, haxs⟩ : ∃ a, mkAxes (fpOf nd.specs) = some a := by
    match h : mkAxes (fpOf nd.specs) with
    | Option.none => exact absurd h haxes
    | some a => exact ⟨a, rfl⟩
  obtain ⟨r, rest2, hdrop⟩ : ∃ r rest2, resps.drop (streamCount nd.specs) = r :: rest2 := by
    match hcase : resps.drop (streamCount nd.specs) with
    | [] =>
      have := List.drop_eq_nil_iff.mp hcase
      omega
    | r :: rest2 => exact ⟨r, rest2, rfl⟩
  obtain ⟨p1, p2, fsr, hfss⟩ :
      ∃ p1 p2 t, (classify nd.specs resps).2.2 = p1 :: p2 :: t := by
    match hc : (classify nd.specs resps).2.2 with
    | [] => rw [hc] at hfsl; simp at hfsl; omega
    | [p1] => rw [hc] at hfsl; simp at hfsl; omega
    | p1 :: p2 :: t => exact ⟨p1, p2, t, rfl⟩
  constructor
  · simp only [invokeTrace, hnd, hrun, List.nil_append]
    rw [hfss, hdrop, hfpe]
    simp [haxs]
  · intro inputs
    simp only [invokeTrace, hnd]
    rcases relay_no_fail (nd.func.gen inputs) resps [] with h | h <;> simp [h]

/-- Witness for the amended C5: the concrete two-foreach-stream node from the
counterexample, invoked without explicit inputs against three responses,
fails with the assertion error. -/
theorem claim_C5_witness :
    (invokeTrace stTwo 1 Option.none [PyObj.str "h1", PyObj.str "h2", PyObj.str "lg"]).2 =
      .failed .assertFail := by
  have hspecs : (stTwo[1]?).map NodeData.specs = some specsTwoStreams := rfl
  obtain ⟨nd, hnd⟩ : ∃ nd, stTwo[1]? = some nd := by
    match hc : stTwo[1]? with
    | Option.none => rw [hc] at hspecs; exact absurd hspecs (by simp)
    | some nd => exact ⟨nd, rfl⟩
  have hs : nd.specs = specsTwoStreams := by
    rw [hnd] at hspecs
    simpa using hspecs
  exact (claim_C5_amended stTwo 1 nd _ hnd (by rw [hs]; decide) (by rw [hs]; decide)
    (by rw [hs]; decide)).1

/-! ### Dict update lemmas -/

theorem dlookup_append_absent : ∀ (d : Bindings) (k : String) (v : PyObj),
    (∀ p ∈ d, p.1 ≠ k) → dlookup (d ++ [(k, v)]) k = some v := by
  intro d k v h
  induction d with
  | nil => simp [dlookup]
  | cons p rest ih =>
    have hp : p.1 ≠ k := h p (List.mem_cons_self _ _)
    simp only [List.cons_append, dlookup, if_neg hp]
    exact ih fun q hq => h q (List.mem_cons_of_mem _ hq)

theorem dset_lookup_self : ∀ (d : Bindings) (k : String) (v : PyObj),
    dlookup (dset d k v) k = some v := by
  intro d k v
  by_cases ha : d.any (fun p => decide (p.1 = k))
  · rw [dset, if_pos ha]
    induction d with
    | nil => simp at ha
    | cons p rest ih =>
      by_cases hp : p.1 = k
      · simp [dlookup, hp]
      · simp only [List.map_cons, if_neg hp, dlookup]
        have ha2 : rest.any (fun p => decide (p.1 = k)) := by
          rcases List.any_eq_true.mp ha with ⟨q, hq, hq2⟩
          rcases List.mem_cons.mp hq with h | h
          · exact absurd (by simpa using (h ▸ hq2 : decide (p.1 = k) = true)) hp
          · exact List.any_eq_true.mpr ⟨q, h, hq2⟩
        exact ih ha2
  · rw [dset, if_neg ha]
    refine dlookup_append_absent d k v fun p hp he => ?_
    exact ha (List.any_eq_true.mpr ⟨p, hp, by simp [he]⟩)

theorem dlookup_append_other : ∀ (d : Bindings) (k k2 : String) (v : PyObj), k2 ≠ k →
    dlookup (d ++ [(k, v)]) k2 = dlookup d k2 := by
  intro d k k2 v hne
  induction d with
  | nil => simp only [List.nil_append, dlookup, if_neg (fun h : k = k2 => hne h.symm)]
  | cons p rest ih =>
    simp only [List.cons_append, dlookup]
    by_cases hk2 : p.1 = k2
    · simp [hk2]
    · rw [if_neg hk2, if_neg hk2]
      exact ih

theorem dset_lookup_other : ∀ (d : Bindings) (k k2 : String) (v : PyObj), k2 ≠ k →
    dlookup (dset d k v) k2 = dlookup d k2 := by
  intro d k k2 v hne
  by_cases ha : d.any (fun p => decide (p.1 = k))
  · rw [dset, if_pos ha]
    clear ha
    induction d with
    | nil => simp [dlookup]
    | cons p rest ih =>
      by_cases hp : p.1 = k
      · have hk2 : ¬ p.1 = k2 := by rw [hp]; exact fun h => hne h.symm
        simp only [List.map_cons, if_pos hp, dlookup,
          if_neg (fun h : k = k2 => hne h.symm), if_neg hk2]
        exact ih
      · simp only [List.map_cons, if_neg hp, dlookup]
        by_cases hk2 : p.1 = k2
        · simp [hk2]
        · rw [if_neg hk2, if_neg hk2]
          exact ih
  · rw [dset, if_neg ha]
    exact dlookup_append_other d k k2 v hne

theorem dupd_keep : ∀ (ps : List (String × PyObj)) (d : Bindings) (k : String),
    (∀ p ∈ ps, p.1 ≠ k) → dlookup (dupd d ps) k = dlookup d k := by
  intro ps
  induction ps with
  | nil => intro d k _; simp [dupd]
  | cons p rest ih =>
    intro d k hk
    have h1 : (dupd d (p :: rest)) = dupd (dset d p.1 p.2) rest := by
      simp [dupd]
    rw [h1, ih _ _ (fun q hq => hk q (List.mem_cons_of_mem _ hq)),
      dset_lookup_other _ _ _ _ (Ne.symm (hk p (List.mem_cons_self _ _)))]

/-- Every common binding survives into a merged fork-input dict, as long as
the common names are distinct. -/
theorem dupd_lookup : ∀ (ps : List (String × PyObj)) (d : Bindings),
    (ps.map Prod.fst).Nodup → ∀ kv ∈ ps, dlookup (dupd d ps) kv.1 = some kv.2 := by
  intro ps
  induction ps with
  | nil => intro d _ kv hkv; simp at hkv
  | cons p rest ih =>
    intro d hnd kv hkv
    have h1 : (dupd d (p :: rest)) = dupd (dset d p.1 p.2) rest := by
      simp [dupd]
    rcases List.mem_cons.mp hkv with h | h
    · subst h
      have hout : ∀ q ∈ rest, q.1 ≠ kv.1 := by
        intro q hq he
        have := (List.nodup_cons.mp hnd).1
        exact this (he ▸ List.mem_map_of_mem Prod.fst hq)
      rw [h1, dupd_keep rest _ kv.1 hout, dset_lookup_self]
    · exact h1 ▸ ih _ (List.nodup_cons.mp hnd).2 kv h

/-! ### Fan-out run lemmas -/

theorem forkPlain_run (common : List (String × PyObj)) :
    ∀ (cross : List (List (String × PyObj))) (i : Nat) (resps : List PyObj),
    cross.length ≤ resps.length →
    forkPlain common cross i resps = (plainForks common i cross, .finished)
  | [], _, _, _ => by simp [forkPlain, plainForks]
  | combo :: rest, i, resps, h => by
      match resps with
      | [] => simp at h
      | r :: rt =>
        have ih := forkPlain_run common rest (i + 1) rt (by simpa using h)
        simp [forkPlain, plainForks, ih]

theorem plainForks_labels (common : List (String × PyObj)) :
    ∀ (cross : List (List (String × PyObj))) (i : Nat),
    (plainForks common i cross).map reqLabel = (List.range' i cross.length).map toString
  | [], _ => by simp [plainForks]
  | combo :: rest, i => by
      have ih := plainForks_labels common rest (i + 1)
      simp [plainForks, reqLabel, List.range'_succ, ih]

theorem crossProd_length {α : Type} :
    ∀ (ls : List (List α)), (crossProd ls).length = (ls.map List.length).prod
  | [] => by simp [crossProd]
  | ax :: rest => by
      have ih := crossProd_length rest
      simp [crossProd, List.length_flatMap, Function.comp_def, ih, List.map_const,
        List.sum_replicate, smul_eq_mul, Nat.mul_comm]

/-- C3: a node with foreach-plain axes of sizes `m` and `n` and no
foreach-stream input emits, in one invocation, the resolution requests, the
logger request, and then exactly the fork requests of the full cross product
in enumeration order — `m * n` of them (second conjunct), labeled `str(0)`
through `str(m*n - 1)` (third conjunct), each carrying the combination
merged with the full common-input set (fourth conjunct: every common binding
is present in every merged dict) and the not-a-group flag (`false` in
`plainForks`) — and then terminates. -/
theorem claim_C3 (st : St) (nid : Nat) (nd : NodeData) (resps : List PyObj)
    (n1 n2 : String) (v1 v2 : PyObj) (xs ys : List PyObj) (m n : Nat)
    (hnd : st[nid]? = some nd)
    (hfp : fpOf nd.specs = [(n1, v1), (n2, v2)])
    (hfs : fsCount nd.specs = 0)
    (hx : pyIter v1 = some xs) (hy : pyIter v2 = some ys)
    (hm : xs.length = m) (hn : ys.length = n)
    (hresp : streamCount nd.specs + 1 + m * n ≤ resps.length) :
    invokeTrace st nid Option.none resps =
      (streamReqs nd.specs ++ Req.getLogger ::
        plainForks (classify nd.specs resps).1 0
          (crossProd [xs.map (fun x => (n1, x)), ys.map (fun y => (n2, y))]),
       .finished) ∧
    (crossProd [xs.map (fun x => (n1, x)), ys.map (fun y => (n2, y))]).length = m * n ∧
    (plainForks (classify nd.specs resps).1 0
        (crossProd [xs.map (fun x => (n1, x)), ys.map (fun y => (n2, y))])).map reqLabel =
      (List.range (m * n)).map toString ∧
    (∀ combo, ((classify nd.specs resps).1.map Prod.fst).Nodup →
      ∀ kv ∈ (classify nd.specs resps).1,
        dlookup (dupd (dictOf combo) (classify nd.specs resps).1) kv.1 = some kv.2) := by
  have hsc : streamCount nd.specs ≤ resps.length := by omega
  have hrun := resolveSpecs_run nd.specs resps [] [] [] hsc
  have hfsl := classify_fs_length nd.specs resps hsc
  have hfpe := classify_fp_eq nd.specs resps hsc
  have hfse : (classify nd.specs resps).2.2 = [] := by
    rw [hfs] at hfsl
    exact List.length_eq_zero.mp hfsl
  have hcross : (crossProd [xs.map (fun x => (n1, x)), ys.map (fun y => (n2, y))]).length
      = m * n := by
    rw [crossProd_length]
    simp [hm, hn]
  obtain ⟨r, rest2, hdrop⟩ : ∃ r rest2, resps.drop (streamCount nd.specs) = r :: rest2 := by
    match hcase : resps.drop (streamCount nd.specs) with
    | [] =>
      have := List.drop_eq_nil_iff.mp hcase
      have hmn : 0 ≤ m * n := Nat.zero_le _
      omega
    | r :: rest2 => exact ⟨r, rest2, rfl⟩
  have hrest2 : m * n ≤ rest2.length := by
    have := congrArg List.length hdrop
    rw [List.length_drop] at this
    simp at this
    omega
  have haxs : mkAxes (fpOf nd.specs) =
      some [xs.map (fun x => (n1, x)), ys.map (fun y => (n2, y))] := by
    rw [hfp]
    simp [mkAxes, hx, hy]
  refine ⟨?_, hcross, ?_, ?_⟩
  · simp only [invokeTrace, hnd, hrun, List.nil_append]
    rw [hfse, hdrop, hfpe]
    have hne : fpOf nd.specs ≠ [] := by rw [hfp]; simp
    simp only [haxs, if_pos (Or.inl hne)]
    rw [forkPlain_run _ _ _ _ (hcross ▸ hrest2)]
  · rw [plainForks_labels, hcross, List.range_eq_range']
  · intro combo hnodup kv hkv
    exact dupd_lookup _ _ hnodup kv hkv

/-- Witness for C3: the concrete node with axes of sizes 2 and 3 and one
common input emits the logger request and the six sequentially labeled fork
requests, and terminates. -/
theorem claim_C3_witness :
    (invokeTrace stAxes 0 Option.none (List.replicate 8 (PyObj.int 99))).2 = .finished ∧
    (invokeTrace stAxes 0 Option.none (List.replicate 8 (PyObj.int 99))).1.map reqLabel =
      ["", "0", "1", "2", "3", "4", "5"] := by
  have hspecs : (stAxes[0]?).map NodeData.specs = some specsAxes := rfl
  obtain ⟨nd, hnd⟩ : ∃ nd, stAxes[0]? = some nd := by
    match hc : stAxes[0]? with
    | Option.none => rw [hc] at hspecs; exact absurd hspecs (by simp)
    | some nd => exact ⟨nd, rfl⟩
  have hs : nd.specs = specsAxes := by
    rw [hnd] at hspecs
    simpa using hspecs
  have H := claim_C3 stAxes 0 nd (List.replicate 8 (PyObj.int 99)) "x" "y"
    (.tuple (.cons (.int 1) (.cons (.int 2) .nil)))
    (.tuple (.cons (.int 10) (.cons (.int 20) (.cons (.int 30) .nil))))
    [.int 1, .int 2] [.int 10, .int 20, .int 30] 2 3
    hnd (by rw [hs]; decide) (by rw [hs]; decide) (by decide) (by decide) (by decide)
    (by decide) (by rw [hs]; decide)
  constructor
  · rw [H.1]
  · rw [H.1, hs]
    decide

theorem forkEach_run (common : List (String × PyObj)) (sname : String) (v : PyObj) :
    ∀ (cross : List (List (String × PyObj))) (i : Nat) (resps : List PyObj),
    cross.length ≤ resps.length →
    forkEach common sname v cross i resps =
      (eachForks common sname v i cross, i + cross.length, some (resps.drop cross.length))
  | [], i, resps, _ => by simp [forkEach, eachForks]
  | combo :: rest, i, resps, h => by
      match resps with
      | [] => simp at h
      | r :: rt =>
        have ih := forkEach_run common sname v rest (i + 1) rt (by simpa using h)
        simp [forkEach, eachForks, ih, List.drop_succ_cons, Prod.ext_iff]
        all_goals omega

theorem pullLoop_run (stream : PyObj) (cross : List (List (String × PyObj)))
    (common : List (String × PyObj)) (sname : String) (ack : PyObj) :
    ∀ (vs : List PyObj) (fuel i : Nat),
    (∀ v ∈ vs, v ≠ PyObj.none) → vs.length < fuel →
    pullLoop stream cross common sname fuel i
      (vs.flatMap (fun v => v :: List.replicate cross.length ack) ++ [PyObj.none]) =
      (pullSection stream cross common sname i vs, .finished)
  | [], fuel, i, _, hf => by
      match fuel, hf with
      | f + 1, _ => simp [pullLoop, pullSection]
  | v :: vs, fuel, i, hv, hf => by
      match fuel, hf with
      | f + 1, hf2 =>
        have hvne : v ≠ PyObj.none := hv v (List.mem_cons_self _ _)
        have hlen : cross.length ≤
            (List.replicate cross.length ack ++
              (vs.flatMap (fun w => w :: List.replicate cross.length ack) ++
                [PyObj.none])).length := by
          simp
        have hrun := forkEach_run common sname v cross i _ hlen
        have hdrop : (List.replicate cross.length ack ++
            (vs.flatMap (fun w => w :: List.replicate cross.length ack) ++
              [PyObj.none])).drop cross.length =
            vs.flatMap (fun w => w :: List.replicate cross.length ack) ++ [PyObj.none] := by
          exact List.drop_left' (by simp)
        have ihf : vs.length < f := by
          simp only [List.length_cons] at hf2
          omega
        have ih := pullLoop_run stream cross common sname ack vs f (i + cross.length)
          (fun w hw => hv w (List.mem_cons_of_mem _ hw)) ihf
        rw [hdrop] at hrun
        simp only [List.flatMap_cons, List.cons_append, List.append_assoc]
        rw [pullLoop]
        simp only [if_neg hvne, hrun, ih, pullSection, List.cons_append,
          List.append_assoc]

theorem eachForks_filter (common : List (String × PyObj)) (sname : String) (v : PyObj) :
    ∀ (cross : List (List (String × PyObj))) (i : Nat),
    (eachForks common sname v i cross).filter isFork = eachForks common sname v i cross
  | [], _ => by simp [eachForks]
  | combo :: rest, i => by
      have ih := eachForks_filter common sname v rest (i + 1)
      simp [eachForks, isFork, ih]

theorem eachForks_labels (common : List (String × PyObj)) (sname : String) (v : PyObj) :
    ∀ (cross : List (List (String × PyObj))) (i : Nat),
    (eachForks common sname v i cross).map reqLabel =
      (List.range' i cross.length).map toString
  | [], _ => by simp [eachForks]
  | combo :: rest, i => by
      have ih := eachForks_labels common sname v rest (i + 1)
      simp [eachForks, reqLabel, List.range'_succ, ih]

/-- The fork requests inside one Fanout-Stream run carry the labels of a
single globally incrementing index. -/
theorem pullSection_forks (stream : PyObj) (cross : List (List (String × PyObj)))
    (common : List (String × PyObj)) (sname : String) :
    ∀ (vs : List PyObj) (i : Nat),
    ((pullSection stream cross common sname i vs).filter isFork).map reqLabel =
      (List.range' i (vs.length * cross.length)).map toString
  | [], i => by simp [pullSection, isFork]
  | v :: vs, i => by
      have ih := pullSection_forks stream cross common sname vs (i + cross.length)
      simp [pullSection, isFork, eachForks_filter, eachForks_labels, ih]
      rw [← List.map_append]
      rw [show i + cross.length = i + 1 * cross.length by omega, List.range'_append]
      congr 2
      ring

/-- C4: a node with exactly one foreach-stream input (resolved to handle `h`
bound to name `sname`) and foreach-plain axes `axs` with `k` cross-product
combinations, driven by pulled values `vs` (none the sentinel) answered with
the exhaustion sentinel at the end: the invocation emits resolution requests,
the logger request, and then for each pulled value one pull request followed
by exactly `k` fork requests (trace shape, first conjunct), `vs.length * k`
forks in total (second conjunct) labeled by the single global counter
`str(0), str(1), ...` (third conjunct); the final pull is answered by the
sentinel and ends the run without a further fork (also first conjunct); with
zero foreach-plain axes `k = 1`, one fork per pulled value (fourth
conjunct). -/
theorem claim_C4 (st : St) (nid : Nat) (nd : NodeData) (r0 : List PyObj) (lg ack : PyObj)
    (vs : List PyObj) (sname : String) (h : PyObj) (axs : List (List (String × PyObj)))
    (resps : List PyObj)
    (hnd : st[nid]? = some nd)
    (hr0 : r0.length = streamCount nd.specs)
    (hvs : ∀ v ∈ vs, v ≠ PyObj.none)
    (hresps : resps = r0 ++ lg ::
      (vs.flatMap (fun v => v :: List.replicate (crossProd axs).length ack) ++ [PyObj.none]))
    (hfse : (classify nd.specs resps).2.2 = [(sname, h)])
    (haxs : mkAxes (fpOf nd.specs) = some axs) :
    invokeTrace st nid Option.none resps =
      (streamReqs nd.specs ++ Req.getLogger ::
        pullSection h (crossProd axs) (classify nd.specs resps).1 sname 0 vs, .finished) ∧
    ((pullSection h (crossProd axs) (classify nd.specs resps).1 sname 0 vs).filter
        isFork).length = vs.length * (crossProd axs).length ∧
    ((pullSection h (crossProd axs) (classify nd.specs resps).1 sname 0 vs).filter
        isFork).map reqLabel =
      (List.range (vs.length * (crossProd axs).length)).map toString ∧
    (axs = [] → (crossProd axs).length = 1) := by
  have hsc : streamCount nd.specs ≤ resps.length := by
    rw [hresps, ← hr0]
    simp
  have hrun := resolveSpecs_run nd.specs resps [] [] [] hsc
  have hfpe := classify_fp_eq nd.specs resps hsc
  have hdrop : resps.drop (streamCount nd.specs) = lg ::
      (vs.flatMap (fun v => v :: List.replicate (crossProd axs).length ack) ++
        [PyObj.none]) := by
    rw [hresps, ← hr0, List.drop_left]
  have hlabels := pullSection_forks h (crossProd axs) (classify nd.specs resps).1 sname vs 0
  have htail : (vs.flatMap (fun v => v :: List.replicate (crossProd axs).length ack) ++
      [PyObj.none]).length = vs.length * ((crossProd axs).length + 1) + 1 := by
    simp only [List.length_append, List.length_flatMap, Function.comp_def,
      List.length_cons, List.length_replicate, List.length_singleton, List.length_nil]
    rw [show (fun v : PyObj => (crossProd axs).length + 1) =
      Function.const PyObj ((crossProd axs).length + 1) from rfl, List.map_const,
      List.sum_replicate, smul_eq_mul]
  refine ⟨?_, ?_, ?_, ?_⟩
  · simp only [invokeTrace, hnd, hrun, List.nil_append]
    rw [hfse, hdrop, hfpe]
    simp only [haxs, if_pos (Or.inr (by simp : ([(sname, h)] : List (String × PyObj)) ≠ []))]
    rw [pullLoop_run h (crossProd axs) (classify nd.specs resps).1 sname ack vs _ 0 hvs
      (by
        rw [htail]
        have hle : vs.length ≤ vs.length * ((crossProd axs).length + 1) :=
          Nat.le_mul_of_pos_right _ (by omega)
        omega)]
  · have := congrArg List.length hlabels
    simpa using this
  · rw [hlabels, List.range_eq_range']
  · intro he
    subst he
    rfl

/-- Witness for C4: the concrete node with one foreach-stream input and one
foreach-plain axis of size 2, driven by two pulled values and the sentinel,
emits the stream-resolution request, the logger request, and then
pull / two forks / pull / two forks / pull, with global labels 0 to 3, and
terminates after the sentinel without a further fork. -/
theorem claim_C4_witness :
    (invokeTrace stStream 1 Option.none
      [.str "H", .str "LG", .str "va", .int 0, .int 0, .str "vb", .int 0, .int 0,
        PyObj.none]).2 = .finished ∧
    (invokeTrace stStream 1 Option.none
      [.str "H", .str "LG", .str "va", .int 0, .int 0, .str "vb", .int 0, .int 0,
        PyObj.none]).1.map reqLabel =
      ["", "", "", "0", "1", "", "2", "3", ""] := by
  have hspecs : (stStream[1]?).map NodeData.specs = some specsStream := rfl
  obtain ⟨nd, hnd⟩ : ∃ nd, stStream[1]? = some nd := by
    match hc : stStream[1]? with
    | Option.none => rw [hc] at hspecs; exact absurd hspecs (by simp)
    | some nd => exact ⟨nd, rfl⟩
  have hs : nd.specs = specsStream := by
    rw [hnd] at hspecs
    simpa using hspecs
  have H := claim_C4 stStream 1 nd [.str "H"] (.str "LG") (.int 0)
    [.str "va", .str "vb"] "s" (.str "H") [[("x", .int 1), ("x", .int 2)]]
    [.str "H", .str "LG", .str "va", .int 0, .int 0, .str "vb", .int 0, .int 0, PyObj.none]
    hnd (by rw [hs]; decide) (by decide) (by decide) (by rw [hs]; decide)
    (by rw [hs]; decide)
  constructor
  · rw [H.1]
  · rw [H.1, hs]
    decide

/-! ### Dependency-graph construction lemmas -/

theorem getNode_ok {st : St} {i : Nat} {nd : NodeData} :
    getNode st i = .ok nd ↔ st[i]? = some nd := by
  rw [getNode]
  match h : st[i]? with
  | some x => simp
  | Option.none => simp

theorem regConsumers_stable (nid : Nat) : ∀ (ds : List Nat) (stt st2 : St),
    regConsumers nid ds stt = .ok st2 →
    ∀ (i : Nat), (st2[i]?).map coreView = (stt[i]?).map coreView ∧
      (st2[i]?).map NodeData.dependent = (stt[i]?).map NodeData.dependent
  | [], stt, st2, h, i => by
      rw [regConsumers, Except.ok.injEq] at h
      subst h
      exact ⟨rfl, rfl⟩
  | d :: ds, stt, st2, h, i => by
      rw [regConsumers] at h
      match hg : getNode stt d with
      | .error e =>
        simp only [hg] at h
        exact absurd h (by simp)
      | .ok nd =>
        simp only [hg] at h
        by_cases hmem : nid ∈ nd.consumers
        · simp only [if_pos hmem] at h
          exact absurd h (by simp)
        · simp only [if_neg hmem] at h
          have hd : stt[d]? = some nd := getNode_ok.mp hg
          have hlt : d < stt.length := by
            by_contra hge
            rw [List.getElem?_eq_none (by omega)] at hd
            exact absurd hd (by simp)
          have ih := regConsumers_stable nid ds _ _ h i
          rcases ih with ⟨ih1, ih2⟩
          rw [ih1, ih2, List.getElem?_set]
          by_cases hdi : d = i
          · subst hdi
            simp [hd, hlt, coreView]
          · simp [hdi]

theorem regDependent_stable (nid : Nat) : ∀ (ds : List Nat) (stt st2 : St),
    regDependent nid ds stt = .ok st2 →
    ∀ (i : Nat), (st2[i]?).map coreView = (stt[i]?).map coreView ∧
      (st2[i]?).map NodeData.consumers = (stt[i]?).map NodeData.consumers
  | [], stt, st2, h, i => by
      rw [regDependent, Except.ok.injEq] at h
      subst h
      exact ⟨rfl, rfl⟩
  | d :: ds, stt, st2, h, i => by
      rw [regDependent] at h
      match hg : getNode stt d with
      | .error e =>
        simp only [hg] at h
        exact absurd h (by simp)
      | .ok nd =>
        simp only [hg] at h
        by_cases hmem : nid ∈ nd.dependent
        · simp only [if_pos hmem] at h
          exact absurd h (by simp)
        · simp only [if_neg hmem] at h
          have hd : stt[d]? = some nd := getNode_ok.mp hg
          have hlt : d < stt.length := by
            by_contra hge
            rw [List.getElem?_eq_none (by omega)] at hd
            exact absurd hd (by simp)
          have ih := regDependent_stable nid ds _ _ h i
          rcases ih with ⟨ih1, ih2⟩
          rw [ih1, ih2, List.getElem?_set]
          by_cases hdi : d = i
          · subst hdi
            simp [hd, hlt, coreView]
          · simp [hdi]

theorem regConsumers_update (nid : Nat) : ∀ (ds : List Nat) (stt st2 : St),
    ds.Nodup → regConsumers nid ds stt = .ok st2 →
    (∀ i, i ∈ ds → ∃ nd, stt[i]? = some nd ∧ nid ∉ nd.consumers ∧
      st2[i]? = some { nd with consumers := nd.consumers ++ [nid] }) ∧
    (∀ (i : Nat), i ∉ ds → st2[i]? = stt[i]?)
  | [], stt, st2, _, h => by
      rw [regConsumers, Except.ok.injEq] at h
      subst h
      constructor
      · intro i hi
        exact absurd hi (List.not_mem_nil i)
      · intro i _
        rfl
  | d :: ds, stt, st2, hnd, h => by
      rw [regConsumers] at h
      match hg : getNode stt d with
      | .error e => simp only [hg] at h; exact absurd h (by simp)
      | .ok nd =>
        simp only [hg] at h
        by_cases hmem : nid ∈ nd.consumers
        · simp only [if_pos hmem] at h
          exact absurd h (by simp)
        · simp only [if_neg hmem] at h
          have hd : stt[d]? = some nd := getNode_ok.mp hg
          have hlt : d < stt.length := by
            by_contra hge
            rw [List.getElem?_eq_none (by omega)] at hd
            exact absurd hd (by simp)
          have hdds : d ∉ ds := (List.nodup_cons.mp hnd).1
          have ih := regConsumers_update nid ds _ _ (List.nodup_cons.mp hnd).2 h
          refine ⟨fun i hi => ?_, fun i hi => ?_⟩
          · rcases List.mem_cons.mp hi with he | hi2
            · subst he
              refine ⟨nd, hd, hmem, ?_⟩
              rw [ih.2 i hdds, List.getElem?_set, if_pos rfl, if_pos hlt]
            · have hne : i ≠ d := fun he => hdds (he ▸ hi2)
              rcases ih.1 i hi2 with ⟨nd2, h1, h2, h3⟩
              rw [List.getElem?_set, if_neg (Ne.symm hne)] at h1
              exact ⟨nd2, h1, h2, h3⟩
          · have hne : i ≠ d := fun he => hi (he ▸ List.mem_cons_self d ds)
            have hi2 : i ∉ ds := fun hm => hi (List.mem_cons_of_mem _ hm)
            rw [ih.2 i hi2, List.getElem?_set, if_neg (Ne.symm hne)]

theorem regDependent_update (nid : Nat) : ∀ (ds : List Nat) (stt st2 : St),
    ds.Nodup → regDependent nid ds stt = .ok st2 →
    (∀ i, i ∈ ds → ∃ nd, stt[i]? = some nd ∧ nid ∉ nd.dependent ∧
      st2[i]? = some { nd with dependent := nd.dependent ++ [nid] }) ∧
    (∀ (i : Nat), i ∉ ds → st2[i]? = stt[i]?)
  | [], stt, st2, _, h => by
      rw [regDependent, Except.ok.injEq] at h
      subst h
      constructor
      · intro i hi
        exact absurd hi (List.not_mem_nil i)
      · intro i _
        rfl
  | d :: ds, stt, st2, hnd, h => by
      rw [regDependent] at h
      match hg : getNode stt d with
      | .error e => simp only [hg] at h; exact absurd h (by simp)
      | .ok nd =>
        simp only [hg] at h
        by_cases hmem : nid ∈ nd.dependent
        · simp only [if_pos hmem] at h
          exact absurd h (by simp)
        · simp only [if_neg hmem] at h
          have hd : stt[d]? = some nd := getNode_ok.mp hg
          have hlt : d < stt.length := by
            by_contra hge
            rw [List.getElem?_eq_none (by omega)] at hd
            exact absurd hd (by simp)
          have hdds : d ∉ ds := (List.nodup_cons.mp hnd).1
          have ih := regDependent_update nid ds _ _ (List.nodup_cons.mp hnd).2 h
          refine ⟨fun i hi => ?_, fun i hi => ?_⟩
          · rcases List.mem_cons.mp hi with he | hi2
            · subst he
              refine ⟨nd, hd, hmem, ?_⟩
              rw [ih.2 i hdds, List.getElem?_set, if_pos rfl, if_pos hlt]
            · have hne : i ≠ d := fun he => hdds (he ▸ hi2)
              rcases ih.1 i hi2 with ⟨nd2, h1, h2, h3⟩
              rw [List.getElem?_set, if_neg (Ne.symm hne)] at h1
              exact ⟨nd2, h1, h2, h3⟩
          · have hne : i ≠ d := fun he => hi (he ▸ List.mem_cons_self d ds)
            have hi2 : i ∉ ds := fun hm => hi (List.mem_cons_of_mem _ hm)
            rw [ih.2 i hi2, List.getElem?_set, if_neg (Ne.symm hne)]

theorem regConsumers_fail (nid : Nat) : ∀ (ds : List Nat) (stt : St),
    ds.Nodup → (∀ d ∈ ds, ∃ nd, stt[d]? = some nd) →
    (∃ d ∈ ds, ∃ nd, stt[d]? = some nd ∧ nid ∈ nd.consumers) →
    regConsumers nid ds stt = .error .assertFail
  | [], stt, _, _, hex => by
      rcases hex with ⟨d, hd, _⟩
      exact absurd hd (by simp)
  | d :: ds, stt, hnd, hall, hex => by
      rw [regConsumers]
      rcases hall d (List.mem_cons_self _ _) with ⟨nd, hdnd⟩
      simp only [getNode_ok.mpr hdnd]
      by_cases hmem : nid ∈ nd.consumers
      · simp only [if_pos hmem]
      · simp only [if_neg hmem]
        have hlt : d < stt.length := by
          by_contra hge
          rw [List.getElem?_eq_none (by omega)] at hdnd
          exact absurd hdnd (by simp)
        have hdds : d ∉ ds := (List.nodup_cons.mp hnd).1
        refine regConsumers_fail nid ds _ (List.nodup_cons.mp hnd).2 ?_ ?_
        · intro d2 hd2
          have hne : d2 ≠ d := fun he => hdds (he ▸ hd2)
          rcases hall d2 (List.mem_cons_of_mem _ hd2) with ⟨nd2, h2⟩
          refine ⟨nd2, ?_⟩
          rw [List.getElem?_set, if_neg (Ne.symm hne)]
          exact h2
        · rcases hex with ⟨d2, hd2, nd2, h2, h3⟩
          rcases List.mem_cons.mp hd2 with he | hd2m
          · exfalso
            subst he
            rw [hdnd] at h2
            exact hmem (by injection h2 with he2; exact he2 ▸ h3)
          · have hne : d2 ≠ d := fun he => hdds (he ▸ hd2m)
            refine ⟨d2, hd2m, nd2, ?_, h3⟩
            rw [List.getElem?_set, if_neg (Ne.symm hne)]
            exact h2

theorem regDependent_fail (nid : Nat) : ∀ (ds : List Nat) (stt : St),
    ds.Nodup → (∀ d ∈ ds, ∃ nd, stt[d]? = some nd) →
    (∃ d ∈ ds, ∃ nd, stt[d]? = some nd ∧ nid ∈ nd.dependent) →
    regDependent nid ds stt = .error .assertFail
  | [], stt, _, _, hex => by
      rcases hex with ⟨d, hd, _⟩
      exact absurd hd (by simp)
  | d :: ds, stt, hnd, hall, hex => by
      rw [regDependent]
      rcases hall d (List.mem_cons_self _ _) with ⟨nd, hdnd⟩
      simp only [getNode_ok.mpr hdnd]
      by_cases hmem : nid ∈ nd.dependent
      · simp only [if_pos hmem]
      · simp only [if_neg hmem]
        have hlt : d < stt.length := by
          by_contra hge
          rw [List.getElem?_eq_none (by omega)] at hdnd
          exact absurd hdnd (by simp)
        have hdds : d ∉ ds := (List.nodup_cons.mp hnd).1
        refine regDependent_fail nid ds _ (List.nodup_cons.mp hnd).2 ?_ ?_
        · intro d2 hd2
          have hne : d2 ≠ d := fun he => hdds (he ▸ hd2)
          rcases hall d2 (List.mem_cons_of_mem _ hd2) with ⟨nd2, h2⟩
          refine ⟨nd2, ?_⟩
          rw [List.getElem?_set, if_neg (Ne.symm hne)]
          exact h2
        · rcases hex with ⟨d2, hd2, nd2, h2, h3⟩
          rcases List.mem_cons.mp hd2 with he | hd2m
          · exfalso
            subst he
            rw [hdnd] at h2
            exact hmem (by injection h2 with he2; exact he2 ▸ h3)
          · have hne : d2 ≠ d := fun he => hdds (he ▸ hd2m)
            refine ⟨d2, hd2m, nd2, ?_, h3⟩
            rw [List.getElem?_set, if_neg (Ne.symm hne)]
            exact h2

theorem regConsumers_ok (nid : Nat) : ∀ (ds : List Nat) (stt : St),
    ds.Nodup → (∀ d ∈ ds, ∃ nd, stt[d]? = some nd ∧ nid ∉ nd.consumers) →
    ∃ st2, regConsumers nid ds stt = .ok st2
  | [], stt, _, _ => ⟨stt, rfl⟩
  | d :: ds, stt, hnd, hall => by
      rcases hall d (List.mem_cons_self _ _) with ⟨nd, hdnd, hmem⟩
      have hlt : d < stt.length := by
        by_contra hge
        rw [List.getElem?_eq_none (by omega)] at hdnd
        exact absurd hdnd (by simp)
      have hdds : d ∉ ds := (List.nodup_cons.mp hnd).1
      rcases regConsumers_ok nid ds
        (stt.set d { nd with consumers := nd.consumers ++ [nid] })
        (List.nodup_cons.mp hnd).2 (fun d2 hd2 => by
          have hne : d2 ≠ d := fun he => hdds (he ▸ hd2)
          rcases hall d2 (List.mem_cons_of_mem _ hd2) with ⟨nd2, h2, h3⟩
          refine ⟨nd2, ?_, h3⟩
          rw [List.getElem?_set, if_neg (Ne.symm hne)]
          exact h2) with ⟨st2, h2⟩
      refine ⟨st2, ?_⟩
      rw [regConsumers]
      simp only [getNode_ok.mpr hdnd, if_neg hmem]
      exact h2

theorem regDependent_ok (nid : Nat) : ∀ (ds : List Nat) (stt : St),
    ds.Nodup → (∀ d ∈ ds, ∃ nd, stt[d]? = some nd ∧ nid ∉ nd.dependent) →
    ∃ st2, regDependent nid ds stt = .ok st2
  | [], stt, _, _ => ⟨stt, rfl⟩
  | d :: ds, stt, hnd, hall => by
      rcases hall d (List.mem_cons_self _ _) with ⟨nd, hdnd, hmem⟩
      have hlt : d < stt.length := by
        by_contra hge
        rw [List.getElem?_eq_none (by omega)] at hdnd
        exact absurd hdnd (by simp)
      have hdds : d ∉ ds := (List.nodup_cons.mp hnd).1
      rcases regDependent_ok nid ds
        (stt.set d { nd with dependent := nd.dependent ++ [nid] })
        (List.nodup_cons.mp hnd).2 (fun d2 hd2 => by
          have hne : d2 ≠ d := fun he => hdds (he ▸ hd2)
          rcases hall d2 (List.mem_cons_of_mem _ hd2) with ⟨nd2, h2, h3⟩
          refine ⟨nd2, ?_, h3⟩
          rw [List.getElem?_set, if_neg (Ne.symm hne)]
          exact h2) with ⟨st2, h2⟩
      refine ⟨st2, ?_⟩
      rw [regDependent]
      simp only [getNode_ok.mpr hdnd, if_neg hmem]
      exact h2

theorem collectDepsAll_ok : ∀ (ds : List Nat) (st : St),
    (∀ d ∈ ds, ∃ nd, st[d]? = some nd) →
    ∃ l, collectDepsAll st ds = .ok l ∧
      ∀ (j : Nat), j ∈ l ↔ ∃ d ∈ ds, ∃ nd, st[d]? = some nd ∧ j ∈ nd.alldeps
  | [], st, _ => ⟨[], rfl, by simp⟩
  | d :: ds, st, hall => by
      rcases hall d (List.mem_cons_self _ _) with ⟨nd, hd⟩
      rcases collectDepsAll_ok ds st
        (fun d2 h2 => hall d2 (List.mem_cons_of_mem _ h2)) with ⟨l, hl, hiff⟩
      refine ⟨nd.alldeps ++ l, ?_, ?_⟩
      · rw [collectDepsAll]
        simp only [getNode_ok.mpr hd, hl]
      · intro j
        rw [List.mem_append, hiff]
        constructor
        · rintro (hj | ⟨d2, hd2, nd2, h2, h3⟩)
          · exact ⟨d, List.mem_cons_self _ _, nd, hd, hj⟩
          · exact ⟨d2, List.mem_cons_of_mem _ hd2, nd2, h2, h3⟩
        · rintro ⟨d2, hd2, nd2, h2, h3⟩
          rcases List.mem_cons.mp hd2 with he | hm
          · subst he
            rw [hd] at h2
            injection h2 with h2
            exact Or.inl (h2 ▸ h3)
          · exact Or.inr ⟨d2, hm, nd2, h2, h3⟩

theorem regConsumers_length (nid : Nat) : ∀ (ds : List Nat) (stt st2 : St),
    regConsumers nid ds stt = .ok st2 → st2.length = stt.length
  | [], stt, st2, h => by
      rw [regConsumers, Except.ok.injEq] at h
      rw [h]
  | d :: ds, stt, st2, h => by
      rw [regConsumers] at h
      match hg : getNode stt d with
      | .error e =>
        simp only [hg] at h
        exact absurd h (by simp)
      | .ok nd =>
        simp only [hg] at h
        by_cases hmem : nid ∈ nd.consumers
        · simp only [if_pos hmem] at h
          exact absurd h (by simp)
        · simp only [if_neg hmem] at h
          rw [regConsumers_length nid ds _ _ h, List.length_set]

theorem regDependent_length (nid : Nat) : ∀ (ds : List Nat) (stt st2 : St),
    regDependent nid ds stt = .ok st2 → st2.length = stt.length
  | [], stt, st2, h => by
      rw [regDependent, Except.ok.injEq] at h
      rw [h]
  | d :: ds, stt, st2, h => by
      rw [regDependent] at h
      match hg : getNode stt d with
      | .error e =>
        simp only [hg] at h
        exact absurd h (by simp)
      | .ok nd =>
        simp only [hg] at h
        by_cases hmem : nid ∈ nd.dependent
        · simp only [if_pos hmem] at h
          exact absurd h (by simp)
        · simp only [if_neg hmem] at h
          rw [regDependent_length nid ds _ _ h, List.length_set]

/-- `Node.__init__` from a well-formed registry (all referenced dependencies
exist, no stale references to the fresh id): the construction succeeds, the
new node is appended with `deps` exactly the stream-referenced nodes and
`alldeps` their union with their own `alldeps`, empty `consumers` and
`dependent`; the new id is added (once — it was absent before) to the
`consumers` of every dep and to the `dependent` of every `alldeps` member;
every other node is untouched. -/
theorem nodeInit_ok (st : St) (func : FuncMeta) (schema hs : Option PyObj)
    (ver : Option Int) (na ns : Option String) (specsArg : Option (List InputSpec))
    (ga : Option GroupV)
    (hdeps : ∀ d ∈ specDeps (specsArg.getD []), d < st.length)
    (halldeps : ∀ (i : Nat) (nd : NodeData), st[i]? = some nd → ∀ j ∈ nd.alldeps, j < st.length)
    (hcons : ∀ (i : Nat) (nd : NodeData), st[i]? = some nd → st.length ∉ nd.consumers)
    (hdept : ∀ (i : Nat) (nd : NodeData), st[i]? = some nd → st.length ∉ nd.dependent) :
    ∃ st2 nd2,
      nodeInit st func schema hs ver na ns specsArg ga = .ok (st.length, st2) ∧
      st2.length = st.length + 1 ∧
      st2[st.length]? = some nd2 ∧
      nd2.deps = specDeps (specsArg.getD []) ∧
      nd2.consumers = [] ∧
      nd2.dependent = [] ∧
      (∀ (j : Nat), j ∈ nd2.alldeps ↔ j ∈ specDeps (specsArg.getD []) ∨
        ∃ d ∈ specDeps (specsArg.getD []), ∃ dnd, st[d]? = some dnd ∧ j ∈ dnd.alldeps) ∧
      nd2.alldeps.Nodup ∧
      (∀ j ∈ nd2.alldeps, j < st.length) ∧
      (∀ d ∈ specDeps (specsArg.getD []), ∃ dnd dnd2, st[d]? = some dnd ∧
        st2[d]? = some dnd2 ∧ coreView dnd2 = coreView dnd ∧
        dnd2.consumers = dnd.consumers ++ [st.length] ∧
        dnd2.dependent = dnd.dependent ++ [st.length]) ∧
      (∀ (i : Nat) (nd : NodeData), st[i]? = some nd →
        ∃ nd2i, st2[i]? = some nd2i ∧ coreView nd2i = coreView nd ∧
        (i ∉ specDeps (specsArg.getD []) → nd2i.consumers = nd.consumers) ∧
        (i ∈ nd2.alldeps → nd2i.dependent = nd.dependent ++ [st.length]) ∧
        (i ∉ nd2.alldeps → nd2i.dependent = nd.dependent)) := by
  have hnodup : (specDeps (specsArg.getD [])).Nodup := List.nodup_dedup _
  have hpres : ∀ d ∈ specDeps (specsArg.getD []), ∃ nd, st[d]? = some nd := by
    intro d hd
    exact ⟨st.get ⟨d, hdeps d hd⟩, List.getElem?_eq_getElem (hdeps d hd)⟩
  obtain ⟨l, hl, hiff⟩ := collectDepsAll_ok (specDeps (specsArg.getD [])) st hpres
  have hadLt : ∀ j ∈ (specDeps (specsArg.getD []) ++ l).dedup, j < st.length := by
    intro j hj
    rcases List.mem_append.mp (List.mem_dedup.mp hj) with hj | hj
    · exact hdeps j hj
    · rcases (hiff j).mp hj with ⟨d, _, dnd, hdnd, hmem⟩
      exact halldeps d dnd hdnd j hmem
  set nd0 := initNodeData func schema hs ver (na.getD func.fname) (ns.getD func.fmodule)
    (if ns.getD func.fmodule = "" then na.getD func.fname
     else ns.getD func.fmodule ++ ":" ++ na.getD func.fname)
    (Node.genhash (specsArg.getD [])) (specsArg.getD [])
    (match ga with
     | some g => g
     | Option.none => if (specsArg.getD []).any InputSpec.foreach then .gtrue else .gfalse)
    (specDeps (specsArg.getD [])) ((specDeps (specsArg.getD []) ++ l).dedup) with hnd0
  have hget1 : ∀ (i : Nat), i < st.length → (st ++ [nd0])[i]? = st[i]? := by
    intro i hi
    exact List.getElem?_append_left hi
  have hP1 : ∀ d ∈ specDeps (specsArg.getD []), ∃ nd, (st ++ [nd0])[d]? = some nd ∧
      st.length ∉ nd.consumers := by
    intro d hd
    rcases hpres d hd with ⟨nd, hnd⟩
    exact ⟨nd, (hget1 d (hdeps d hd)).symm ▸ hnd, hcons d nd hnd⟩
  obtain ⟨st1, hreg1⟩ := regConsumers_ok st.length (specDeps (specsArg.getD []))
    (st ++ [nd0]) hnodup hP1
  have hupd1 := regConsumers_update st.length (specDeps (specsArg.getD []))
    (st ++ [nd0]) st1 hnodup hreg1
  have hstab1 := regConsumers_stable st.length (specDeps (specsArg.getD []))
    (st ++ [nd0]) st1 hreg1
  have hP2 : ∀ d ∈ (specDeps (specsArg.getD []) ++ l).dedup, ∃ nd, st1[d]? = some nd ∧
      st.length ∉ nd.dependent := by
    intro d hd
    rcases (hstab1 d).2 with hdep1
    have hlt := hadLt d hd
    have h0 : st[d]? = some (st.get ⟨d, hlt⟩) := List.getElem?_eq_getElem hlt
    have h1 : (st ++ [nd0])[d]? = some (st.get ⟨d, hlt⟩) := (hget1 d hlt).symm ▸ h0
    rw [h1] at hdep1
    rcases Option.map_eq_some'.mp hdep1 with ⟨y, hy1, hy2⟩
    refine ⟨y, hy1, ?_⟩
    rw [hy2]
    exact hdept d _ h0
  obtain ⟨st2, hreg2⟩ := regDependent_ok st.length ((specDeps (specsArg.getD []) ++ l).dedup)
    st1 (List.nodup_dedup _) hP2
  have hupd2 := regDependent_update st.length ((specDeps (specsArg.getD []) ++ l).dedup)
    st1 st2 (List.nodup_dedup _) hreg2
  have heq : nodeInit st func schema hs ver na ns specsArg ga = .ok (st.length, st2) := by
    rw [nodeInit.eq_def]
    simp only [hl, ← hnd0, hreg1, hreg2]
  have hselfdeps : st.length ∉ specDeps (specsArg.getD []) := fun hm => by
    have := hdeps _ hm
    omega
  have hselfall : st.length ∉ (specDeps (specsArg.getD []) ++ l).dedup := fun hm => by
    have := hadLt _ hm
    omega
  have hself1 : st1[st.length]? = some nd0 := by
    rw [hupd1.2 st.length hselfdeps, List.getElem?_concat_length]
  have hself2 : st2[st.length]? = some nd0 := by
    rw [hupd2.2 st.length hselfall, hself1]
  have hlen2 : st2.length = st.length + 1 := by
    rw [regDependent_length _ _ _ _ hreg2, regConsumers_length _ _ _ _ hreg1]
    simp
  refine ⟨st2, nd0, heq, hlen2, hself2, by rw [hnd0]; rfl, by rw [hnd0]; rfl,
    by rw [hnd0]; rfl, ?_, ?_, ?_, ?_, ?_⟩
  · intro j
    rw [hnd0]
    show j ∈ (specDeps (specsArg.getD []) ++ l).dedup ↔ _
    rw [List.mem_dedup, List.mem_append, hiff]
  · rw [hnd0]
    exact List.nodup_dedup _
  · rw [hnd0]
    exact hadLt
  · intro d hd
    rcases hupd1.1 d hd with ⟨x, hx1, hx2, hx3⟩
    have hxlt := hdeps d hd
    rw [hget1 d hxlt] at hx1
    have hdall : d ∈ (specDeps (specsArg.getD []) ++ l).dedup := by
      rw [List.mem_dedup, List.mem_append]
      exact Or.inl hd
    rcases hupd2.1 d hdall with ⟨y, hy1, hy2, hy3⟩
    rw [hx3] at hy1
    injection hy1 with hy1
    subst hy1
    exact ⟨x, _, hx1, hy3, rfl, rfl, rfl⟩
  · intro i nd hnd
    have hilt : i < st.length := by
      by_contra hge
      rw [List.getElem?_eq_none (by omega)] at hnd
      exact absurd hnd (by simp)
    by_cases hideps : i ∈ specDeps (specsArg.getD [])
    · have hiall : i ∈ (specDeps (specsArg.getD []) ++ l).dedup :=
        List.mem_dedup.mpr (List.mem_append.mpr (Or.inl hideps))
      rcases hupd1.1 i hideps with ⟨x, hx1, hx2, hx3⟩
      rw [hget1 i hilt, hnd] at hx1
      injection hx1 with hx1
      subst hx1
      rcases hupd2.1 i hiall with ⟨y, hy1, hy2, hy3⟩
      rw [hx3] at hy1
      injection hy1 with hy1
      subst hy1
      refine ⟨_, hy3, rfl, fun hc => absurd hideps hc, fun _ => rfl, fun hc => ?_⟩
      exact absurd (show i ∈ nd0.alldeps by rw [hnd0]; exact hiall) hc
    · have h1 : st1[i]? = some nd := by
        rw [hupd1.2 i hideps, hget1 i hilt, hnd]
      by_cases hiall : i ∈ (specDeps (specsArg.getD []) ++ l).dedup
      · rcases hupd2.1 i hiall with ⟨y, hy1, hy2, hy3⟩
        rw [h1] at hy1
        injection hy1 with hy1
        subst hy1
        refine ⟨_, hy3, rfl, fun _ => rfl, fun _ => rfl, fun hc => ?_⟩
        exact absurd (show i ∈ nd0.alldeps by rw [hnd0]; exact hiall) hc
      · refine ⟨nd, (hupd2.2 i hiall).symm ▸ h1, rfl, fun _ => rfl, fun hc => ?_, fun _ => rfl⟩
        exact absurd (show i ∈ (specDeps (specsArg.getD []) ++ l).dedup by
          rw [hnd0] at hc; exact hc) hiall

theorem coreView_eq {a b : NodeData} (h : coreView a = coreView b) :
    a.func = b.func ∧ a.version = b.version ∧ a.name = b.name ∧ a.namespc = b.namespc ∧
    a.fullname = b.fullname ∧ a.specs_hash = b.specs_hash ∧
    a.header_schema = b.header_schema ∧ a.schema = b.schema ∧ a.specs = b.specs ∧
    a.group = b.group ∧ a.keyOverride = b.keyOverride ∧ a.deps = b.deps ∧
    a.alldeps = b.alldeps := by
  simpa [coreView, Prod.ext_iff] using h

/-- C7: constructing a node from a well-formed registry gives `deps` exactly
the StreamSpec-referenced nodes, `alldeps` equal to `deps` united with each
dependency's `alldeps`, and the new node added once to each dep's
`consumers` and each alldeps member's `dependent` (which did not contain it
before); registering an edge that exists already instead fails the
assertion, both in the consumers loop (second conjunct: a dependency already
lists the node as a consumer) and in the dependent loop (third conjunct: the
consumers pass is clean but an alldeps member already lists the node as
dependent). -/
theorem claim_C7 :
    (∀ (st : St) (func : FuncMeta) (schema hs : Option PyObj) (ver : Option Int)
      (na ns : Option String) (specsArg : Option (List InputSpec)) (ga : Option GroupV),
      (∀ d ∈ specDeps (specsArg.getD []), d < st.length) →
      (∀ (i : Nat) (nd : NodeData), st[i]? = some nd → ∀ j ∈ nd.alldeps, j < st.length) →
      (∀ (i : Nat) (nd : NodeData), st[i]? = some nd → st.length ∉ nd.consumers) →
      (∀ (i : Nat) (nd : NodeData), st[i]? = some nd → st.length ∉ nd.dependent) →
      ∃ st2 nd2, nodeInit st func schema hs ver na ns specsArg ga = .ok (st.length, st2) ∧
        st2[st.length]? = some nd2 ∧
        (∀ (j : Nat), j ∈ nd2.deps ↔ ∃ s ∈ specsArg.getD [], specRef s = some j) ∧
        (∀ (j : Nat), j ∈ nd2.alldeps ↔ j ∈ nd2.deps ∨
          ∃ d ∈ nd2.deps, ∃ dnd, st[d]? = some dnd ∧ j ∈ dnd.alldeps) ∧
        (∀ d ∈ nd2.deps, ∃ dnd dnd2, st[d]? = some dnd ∧ st2[d]? = some dnd2 ∧
          st.length ∉ dnd.consumers ∧ dnd2.consumers = dnd.consumers ++ [st.length]) ∧
        (∀ d ∈ nd2.alldeps, ∃ dnd dnd2, st[d]? = some dnd ∧ st2[d]? = some dnd2 ∧
          st.length ∉ dnd.dependent ∧ dnd2.dependent = dnd.dependent ++ [st.length])) ∧
    (∀ (st : St) (func : FuncMeta) (schema hs : Option PyObj) (ver : Option Int)
      (na ns : Option String) (specsArg : Option (List InputSpec)) (ga : Option GroupV),
      (∀ d ∈ specDeps (specsArg.getD []), d < st.length) →
      (∃ d ∈ specDeps (specsArg.getD []), ∃ dnd, st[d]? = some dnd ∧
        st.length ∈ dnd.consumers) →
      nodeInit st func schema hs ver na ns specsArg ga = .error .assertFail) ∧
    (∀ (st : St) (func : FuncMeta) (schema hs : Option PyObj) (ver : Option Int)
      (na ns : Option String) (specsArg : Option (List InputSpec)) (ga : Option GroupV),
      (∀ d ∈ specDeps (specsArg.getD []), d < st.length) →
      (∀ (i : Nat) (nd : NodeData), st[i]? = some nd → ∀ j ∈ nd.alldeps, j < st.length) →
      (∀ (i : Nat) (nd : NodeData), st[i]? = some nd → st.length ∉ nd.consumers) →
      (∃ d, (d ∈ specDeps (specsArg.getD []) ∨
          ∃ d0 ∈ specDeps (specsArg.getD []), ∃ d0nd, st[d0]? = some d0nd ∧
            d ∈ d0nd.alldeps) ∧
        ∃ dnd, st[d]? = some dnd ∧ st.length ∈ dnd.dependent) →
      nodeInit st func schema hs ver na ns specsArg ga = .error .assertFail) := by
  refine ⟨?_, ?_, ?_⟩
  · intro st func schema hs ver na ns specsArg ga hdeps halldeps hcons hdept
    obtain ⟨st2, nd2, heq, hlen2, hself, hdepsEq, hconsNil, hdepNil, hallIff, hallNodup,
      hallLt, hdepUpd, hframe⟩ :=
      nodeInit_ok st func schema hs ver na ns specsArg ga hdeps halldeps hcons hdept
    refine ⟨st2, nd2, heq, hself, ?_, ?_, ?_, ?_⟩
    · intro j
      rw [hdepsEq, specDeps, List.mem_dedup, List.mem_filterMap]
    · intro j
      rw [hallIff, hdepsEq]
    · intro d hd
      rw [hdepsEq] at hd
      rcases hdepUpd d hd with ⟨dnd, dnd2, h1, h2, _, h4, _⟩
      exact ⟨dnd, dnd2, h1, h2, hcons d dnd h1, h4⟩
    · intro d hd
      have hdlt := hallLt d hd
      have h0 : st[d]? = some (st.get ⟨d, hdlt⟩) := List.getElem?_eq_getElem hdlt
      by_cases hdd : d ∈ specDeps (specsArg.getD [])
      · rcases hdepUpd d hdd with ⟨dnd, dnd2, h1, h2, _, _, h5⟩
        exact ⟨dnd, dnd2, h1, h2, hdept d dnd h1, h5⟩
      · rcases hframe d _ h0 with ⟨nd2i, h1, _, _, h4, _⟩
        exact ⟨_, nd2i, h0, h1, hdept d _ h0, h4 hd⟩
  · intro st func schema hs ver na ns specsArg ga hdeps hexists
    have hpres : ∀ d ∈ specDeps (specsArg.getD []), ∃ nd, st[d]? = some nd := by
      intro d hd
      exact ⟨st.get ⟨d, hdeps d hd⟩, List.getElem?_eq_getElem (hdeps d hd)⟩
    obtain ⟨l, hl, _⟩ := collectDepsAll_ok (specDeps (specsArg.getD [])) st hpres
    have hfail : ∀ (x : NodeData),
        regConsumers st.length (specDeps (specsArg.getD [])) (st ++ [x]) =
          .error .assertFail := by
      intro x
      refine regConsumers_fail st.length _ _ (List.nodup_dedup _) ?_ ?_
      · intro d hd
        rcases hpres d hd with ⟨nd, hnd⟩
        exact ⟨nd, (List.getElem?_append_left (hdeps d hd)).symm ▸ hnd⟩
      · rcases hexists with ⟨d, hd, dnd, h1, h2⟩
        exact ⟨d, hd, dnd, (List.getElem?_append_left (hdeps d hd)).symm ▸ h1, h2⟩
    rw [nodeInit.eq_def]
    simp only [hl, hfail]
  · intro st func schema hs ver na ns specsArg ga hdeps halldeps hcons hexists
    have hnodup : (specDeps (specsArg.getD [])).Nodup := List.nodup_dedup _
    have hpres : ∀ d ∈ specDeps (specsArg.getD []), ∃ nd, st[d]? = some nd := by
      intro d hd
      exact ⟨st.get ⟨d, hdeps d hd⟩, List.getElem?_eq_getElem (hdeps d hd)⟩
    obtain ⟨l, hl, hiff⟩ := collectDepsAll_ok (specDeps (specsArg.getD [])) st hpres
    have hadLt : ∀ j ∈ (specDeps (specsArg.getD []) ++ l).dedup, j < st.length := by
      intro j hj
      rcases List.mem_append.mp (List.mem_dedup.mp hj) with hj | hj
      · exact hdeps j hj
      · rcases (hiff j).mp hj with ⟨d, _, dnd, hdnd, hmem⟩
        exact halldeps d dnd hdnd j hmem
    set nd0 := initNodeData func schema hs ver (na.getD func.fname) (ns.getD func.fmodule)
      (if ns.getD func.fmodule = "" then na.getD func.fname
       else ns.getD func.fmodule ++ ":" ++ na.getD func.fname)
      (Node.genhash (specsArg.getD [])) (specsArg.getD [])
      (match ga with
       | some g => g
       | Option.none => if (specsArg.getD []).any InputSpec.foreach then .gtrue else .gfalse)
      (specDeps (specsArg.getD [])) ((specDeps (specsArg.getD []) ++ l).dedup) with hnd0
    have hget1 : ∀ (i : Nat), i < st.length → (st ++ [nd0])[i]? = st[i]? := by
      intro i hi
      exact List.getElem?_append_left hi
    have hP1 : ∀ d ∈ specDeps (specsArg.getD []), ∃ nd, (st ++ [nd0])[d]? = some nd ∧
        st.length ∉ nd.consumers := by
      intro d hd
      rcases hpres d hd with ⟨nd, hnd⟩
      exact ⟨nd, (hget1 d (hdeps d hd)).symm ▸ hnd, hcons d nd hnd⟩
    obtain ⟨st1, hreg1⟩ := regConsumers_ok st.length (specDeps (specsArg.getD []))
      (st ++ [nd0]) hnodup hP1
    have hstab1 := regConsumers_stable st.length (specDeps (specsArg.getD []))
      (st ++ [nd0]) st1 hreg1
    have hP2 : ∀ d ∈ (specDeps (specsArg.getD []) ++ l).dedup, ∃ nd, st1[d]? = some nd := by
      intro d hd
      have hdlt := hadLt d hd
      have h0 : st[d]? = some (st.get ⟨d, hdlt⟩) := List.getElem?_eq_getElem hdlt
      have h1 : (st ++ [nd0])[d]? = some (st.get ⟨d, hdlt⟩) := (hget1 d hdlt).symm ▸ h0
      have h2 := (hstab1 d).1
      rw [h1] at h2
      rcases Option.map_eq_some'.mp h2 with ⟨y, hy1, _⟩
      exact ⟨y, hy1⟩
    have hEx : ∃ d ∈ (specDeps (specsArg.getD []) ++ l).dedup, ∃ nd, st1[d]? = some nd ∧
        st.length ∈ nd.dependent := by
      rcases hexists with ⟨d, hdmem, dnd, hdnd, hdep⟩
      have hdAll : d ∈ (specDeps (specsArg.getD []) ++ l).dedup := by
        rw [List.mem_dedup, List.mem_append]
        rcases hdmem with h | h
        · exact Or.inl h
        · exact Or.inr ((hiff d).mpr h)
      have hdlt := hadLt d hdAll
      have h1 : (st ++ [nd0])[d]? = some dnd := (hget1 d hdlt).symm ▸ hdnd
      have h2 := (hstab1 d).2
      rw [h1] at h2
      rcases Option.map_eq_some'.mp h2 with ⟨y, hy1, hy2⟩
      refine ⟨d, hdAll, y, hy1, ?_⟩
      rw [hy2]
      exact hdep
    have hfail := regDependent_fail st.length ((specDeps (specsArg.getD []) ++ l).dedup)
      st1 (List.nodup_dedup _) hP2 hEx
    rw [nodeInit.eq_def]
    simp only [hl, ← hnd0, hreg1, hfail]

/-- Witness for C7: a node with one stream input on a clean one-node
registry is constructed with its dependency recorded; the same construction
against a registry whose node already lists the fresh id as a consumer fails
the assertion, as does one against a registry whose node has clean consumers
but already lists the fresh id as dependent. -/
theorem claim_C7_witness :
    (∃ st2 nd2, nodeInit stSrc funcOnce Option.none Option.none Option.none Option.none
      Option.none (some specsStream) Option.none = .ok (1, st2) ∧
      st2[1]? = some nd2 ∧ 0 ∈ nd2.deps) ∧
    nodeInit [ndCorrupt] funcOnce Option.none Option.none Option.none Option.none
      Option.none (some specsStream) Option.none = .error .assertFail ∧
    nodeInit [ndCorrupt2] funcOnce Option.none Option.none Option.none Option.none
      Option.none (some specsStream) Option.none = .error .assertFail := by
  have hsmall : ∀ (i : Nat) (nd : NodeData), stSrc[i]? = some nd →
      nd.alldeps = [] ∧ nd.consumers = [] ∧ nd.dependent = [] := by
    intro i nd h
    match i with
    | 0 =>
      have h2 : (stSrc[0]?).map (fun nd => (nd.alldeps, nd.consumers, nd.dependent)) =
          some ([], [], []) := rfl
      rw [h] at h2
      simp at h2
      exact ⟨h2.1, h2.2.1, h2.2.2⟩
    | i + 1 =>
      rw [List.getElem?_eq_none (by
        have : stSrc.length = 1 := rfl
        omega)] at h
      exact absurd h (by simp)
  refine ⟨?_, ?_, ?_⟩
  · have hlen : stSrc.length = 1 := rfl
    obtain ⟨st2, nd2, heq, hself, hdepsIff, _, _, _⟩ :=
      (claim_C7.1 stSrc funcOnce Option.none Option.none Option.none Option.none
        Option.none (some specsStream) Option.none)
        (by rw [hlen]; decide)
        (fun i nd h j hj => absurd (((hsmall i nd h).1) ▸ hj) (by simp))
        (fun i nd h => by rw [(hsmall i nd h).2.1]; simp)
        (fun i nd h => by rw [(hsmall i nd h).2.2]; simp)
    refine ⟨st2, nd2, hlen ▸ heq, hlen ▸ hself, ?_⟩
    rw [hdepsIff]
    exact ⟨specsStream[1], by decide, by decide⟩
  · refine claim_C7.2.1 [ndCorrupt] funcOnce Option.none Option.none Option.none Option.none
      Option.none (some specsStream) Option.none (by decide) ?_
    exact ⟨0, by decide, ndCorrupt, rfl, by decide⟩
  · have hone : ∀ (i : Nat) (nd : NodeData), ([ndCorrupt2] : St)[i]? = some nd →
        nd = ndCorrupt2 := by
      intro i nd h
      match i with
      | 0 =>
        have h2 : (([ndCorrupt2] : St)[0]?) = some ndCorrupt2 := rfl
        rw [h2] at h
        injection h with h3
        exact h3.symm
      | i + 1 =>
        rw [List.getElem?_eq_none (by simp)] at h
        exact absurd h (by simp)
    refine claim_C7.2.2 [ndCorrupt2] funcOnce Option.none Option.none Option.none Option.none
      Option.none (some specsStream) Option.none (by decide) ?_ ?_ ?_
    · intro i nd h j hj
      exact absurd ((hone i nd h) ▸ hj) (by simp [ndCorrupt2])
    · intro i nd h
      rw [hone i nd h]
      decide
    · exact ⟨0, Or.inl (by decide), ndCorrupt2, rfl, by decide⟩

/-- Every state reached by constructing nodes from already-constructed
dependencies satisfies the bounds invariant. -/
theorem reachable_graphInv : ∀ {st : St}, Reachable st → GraphInv st := by
  intro st h
  induction h with
  | nil =>
    intro i nd h
    exact absurd h (by simp)
  | @step st st2 func schema hs ver na ns specsArg ga nid hr hrefs hok ih =>
    have halldeps : ∀ (i : Nat) (nd : NodeData), st[i]? = some nd →
        ∀ j ∈ nd.alldeps, j < st.length := by
      intro i nd h j hj
      have hilt : i < st.length := by
        by_contra hge
        rw [List.getElem?_eq_none (by omega)] at h
        exact absurd h (by simp)
      exact lt_trans ((ih i nd h).2.1 j hj) hilt
    have hcons : ∀ (i : Nat) (nd : NodeData), st[i]? = some nd →
        st.length ∉ nd.consumers := by
      intro i nd h hm
      exact absurd ((ih i nd h).2.2.1 _ hm).2 (lt_irrefl _)
    have hdept : ∀ (i : Nat) (nd : NodeData), st[i]? = some nd →
        st.length ∉ nd.dependent := by
      intro i nd h hm
      exact absurd ((ih i nd h).2.2.2 _ hm).2 (lt_irrefl _)
    obtain ⟨st2', nd2, heq, hlen2, hself, hdepsEq, hconsNil, hdepNil, hallIff, hallNodup,
      hallLt, hdepUpd, hframe⟩ :=
      nodeInit_ok st func schema hs ver na ns specsArg ga hrefs halldeps hcons hdept
    rw [hok] at heq
    injection heq with heq
    injection heq with heqn heqs
    subst heqs
    intro i nd h
    by_cases hi : i = st.length
    · subst hi
      rw [hself] at h
      injection h with h
      subst h
      refine ⟨?_, ?_, ?_, ?_⟩
      · intro j hj
        rw [hdepsEq] at hj
        exact hrefs j hj
      · exact hallLt
      · rw [hconsNil]
        intro j hj
        exact absurd hj (by simp)
      · rw [hdepNil]
        intro j hj
        exact absurd hj (by simp)
    · have hilt : i < st.length := by
        have : i < st2.length := by
          by_contra hge
          rw [List.getElem?_eq_none (by omega)] at h
          exact absurd h (by simp)
        omega
      have h0 : st[i]? = some (st.get ⟨i, hilt⟩) := List.getElem?_eq_getElem hilt
      have hinv := ih i _ h0
      by_cases hid : i ∈ specDeps (specsArg.getD [])
      · rcases hdepUpd i hid with ⟨dnd, dnd2, h1, h2, hcv, h4, h5⟩
        rw [h0] at h1
        injection h1 with h1
        subst h1
        rw [h] at h2
        injection h2 with h2
        subst h2
        rcases coreView_eq hcv with ⟨_, _, _, _, _, _, _, _, _, _, _, hdd, hda⟩
        refine ⟨?_, ?_, ?_, ?_⟩
        · rw [hdd]; exact hinv.1
        · rw [hda]; exact hinv.2.1
        · rw [h4]
          intro j hj
          rcases List.mem_append.mp hj with hj | hj
          · have := hinv.2.2.1 j hj
            omega
          · simp only [List.mem_singleton] at hj
            subst hj
            omega
        · rw [h5]
          intro j hj
          rcases List.mem_append.mp hj with hj | hj
          · have := hinv.2.2.2 j hj
            omega
          · simp only [List.mem_singleton] at hj
            subst hj
            omega
      · rcases hframe i _ h0 with ⟨nd2i, h1, hcv, h3, h4, h5⟩
        rw [h] at h1
        injection h1 with h1
        subst h1
        rcases coreView_eq hcv with ⟨_, _, _, _, _, _, _, _, _, _, _, hdd, hda⟩
        have hcc := h3 hid
        refine ⟨?_, ?_, ?_, ?_⟩
        · rw [hdd]; exact hinv.1
        · rw [hda]; exact hinv.2.1
        · rw [hcc]
          intro j hj
          have := hinv.2.2.1 j hj
          omega
        · by_cases hia : i ∈ nd2.alldeps
          · rw [h4 hia]
            intro j hj
            rcases List.mem_append.mp hj with hj | hj
            · have := hinv.2.2.2 j hj
              omega
            · simp only [List.mem_singleton] at hj
              subst hj
              omega
          · rw [h5 hia]
            intro j hj
            have := hinv.2.2.2 j hj
            omega

/-- C8: in any registry built by a sequence of constructions whose
dependencies are already fully constructed nodes, no node appears in its own
`deps`, `alldeps`, `consumers`, or `dependent`. -/
theorem claim_C8 (st : St) (h : Reachable st) :
    ∀ (i : Nat) (nd : NodeData), st[i]? = some nd →
      i ∉ nd.deps ∧ i ∉ nd.alldeps ∧ i ∉ nd.consumers ∧ i ∉ nd.dependent := by
  intro i nd hnd
  rcases reachable_graphInv h i nd hnd with ⟨h1, h2, h3, h4⟩
  exact ⟨fun hm => absurd (h1 i hm) (lt_irrefl i),
    fun hm => absurd (h2 i hm) (lt_irrefl i),
    fun hm => absurd ((h3 i hm).1) (lt_irrefl i),
    fun hm => absurd ((h4 i hm).1) (lt_irrefl i)⟩

/-- Witness for C8: the two-node chain (source node, then a node with a
stream input on it) is reachable, and its dependent node is in none of its
own edge sets. -/
theorem claim_C8_witness :
    Reachable stStream ∧
    (stStream[1]?).elim False
      (fun nd => 1 ∉ nd.deps ∧ 1 ∉ nd.alldeps ∧ 1 ∉ nd.consumers ∧ 1 ∉ nd.dependent) := by
  have h1 : Reachable stSrc :=
    Reachable.step Reachable.nil (by decide)
      (show nodeInit [] funcSrc Option.none Option.none Option.none Option.none
        Option.none Option.none Option.none = .ok (0, stSrc) from rfl)
  have h2 : Reachable stStream :=
    Reachable.step h1 (by decide)
      (show nodeInit stSrc funcOnce Option.none Option.none Option.none Option.none
        Option.none (some specsStream) Option.none = .ok (1, stStream) from rfl)
  refine ⟨h2, ?_⟩
  have hsome : (stStream[1]?).isSome = true := rfl
  match hc : stStream[1]? with
  | Option.none => rw [hc] at hsome; exact absurd hsome (by simp)
  | some nd =>
    simp only [Option.elim]
    exact claim_C8 stStream h2 1 nd hc

/-! ### Identity hashing lemmas -/

theorem leChars_total : ∀ (a b : List Char), leChars a b = true ∨ leChars b a = true
  | [], _ => Or.inl rfl
  | _ :: _, [] => Or.inr rfl
  | a :: as, b :: bs => by
      by_cases hab : a = b
      · subst hab
        rcases leChars_total as bs with h | h
        · exact Or.inl (by simp [leChars, h])
        · exact Or.inr (by simp [leChars, h])
      · rcases lt_trichotomy a b with h | h | h
        · refine Or.inl ?_
          simp only [leChars, if_neg hab]
          exact decide_eq_true h
        · exact absurd h hab
        · refine Or.inr ?_
          simp only [leChars, if_neg (Ne.symm hab)]
          exact decide_eq_true h

theorem leChars_trans : ∀ (a b c : List Char),
    leChars a b = true → leChars b c = true → leChars a c = true
  | [], _, _ => fun _ _ => rfl
  | _ :: _, [], _ => fun h1 _ => by simp [leChars] at h1
  | _ :: _, _ :: _, [] => fun _ h2 => by simp [leChars] at h2
  | a :: as, b :: bs, c :: cs => fun h1 h2 => by
      by_cases hab : a = b <;> by_cases hbc : b = c
      · subst hab; subst hbc
        simp only [leChars, if_pos rfl] at h1 h2 ⊢
        exact leChars_trans as bs cs h1 h2
      · subst hab
        simp only [leChars, if_pos rfl, if_neg hbc] at h2 ⊢
        exact h2
      · subst hbc
        simp only [leChars, if_neg hab] at h1 ⊢
        exact h1
      · simp only [leChars, if_neg hab, if_neg hbc] at h1 h2
        have hlt := lt_trans (of_decide_eq_true h1) (of_decide_eq_true h2)
        simp only [leChars, if_neg (ne_of_lt hlt)]
        exact decide_eq_true hlt

theorem leChars_antisymm : ∀ (a b : List Char),
    leChars a b = true → leChars b a = true → a = b
  | [], [] => fun _ _ => rfl
  | [], _ :: _ => fun _ h2 => by simp [leChars] at h2
  | _ :: _, [] => fun h1 _ => by simp [leChars] at h1
  | a :: as, b :: bs => fun h1 h2 => by
      by_cases hab : a = b
      · subst hab
        simp only [leChars, if_pos rfl] at h1 h2
        rw [leChars_antisymm as bs h1 h2]
      · simp only [leChars, if_neg hab, if_neg (Ne.symm hab)] at h1 h2
        exact absurd (of_decide_eq_true h2) (not_lt_of_lt (of_decide_eq_true h1))

instance : IsTotal InputSpec specLe := ⟨fun _ _ => leChars_total _ _⟩
instance : IsTrans InputSpec specLe := ⟨fun _ _ _ => leChars_trans _ _ _⟩
instance : IsAntisymm String pyStrLe :=
  ⟨fun _ _ h1 h2 => String.ext (leChars_antisymm _ _ h1 h2)⟩

theorem pyreprIn_ofList : ∀ (ks : List PyObj),
    pyreprIn (PyList.ofList ks) = interStr (ks.map pyrepr)
  | [] => rfl
  | [_] => rfl
  | x :: y :: r => by
      have ih := pyreprIn_ofList (y :: r)
      simp only [PyList.ofList, pyreprIn, interStr, List.map_cons] at ih ⊢
      rw [ih]

theorem pyLen_ofList : ∀ (ks : List PyObj), (PyList.ofList ks).len = ks.length
  | [] => rfl
  | _ :: r => by
      simp only [PyList.ofList, PyList.len, List.length_cons, pyLen_ofList r]

theorem tupleRepr_congr (ks1 ks2 : List PyObj) (h : ks1.map pyrepr = ks2.map pyrepr) :
    pyrepr (.tuple (PyList.ofList ks1)) = pyrepr (.tuple (PyList.ofList ks2)) := by
  have hlen : ks1.length = ks2.length := by
    have := congrArg List.length h
    simpa using this
  simp only [pyrepr]
  rw [pyreprIn_ofList, pyreprIn_ofList, h, pyLen_ofList, pyLen_ofList, hlen]

/-- C1: `Node.genhash` is determined by the multiset of spec keys — two spec
mappings whose key collections agree up to order (in particular, dict-backed
spec sets with equal key sets) hash to the identical identity string, which
is by definition the SHA-256 of the canonical textual representation of the
sorted keys, base-32 encoded, lower-cased, with the four padding characters
dropped. -/
theorem claim_C1 (s1 s2 : List InputSpec)
    (hperm : (s1.map InputSpec.key).Perm (s2.map InputSpec.key)) :
    Node.genhash s1 = Node.genhash s2 := by
  have hmm : ∀ (s : List InputSpec),
      (sortSpecs s).map (fun sp => pyrepr sp.key) =
        ((sortSpecs s).map InputSpec.key).map pyrepr := by
    intro s
    simp [List.map_map, Function.comp_def]
  have hkey : ((sortSpecs s1).map fun sp => pyrepr sp.key) =
      ((sortSpecs s2).map fun sp => pyrepr sp.key) := by
    refine List.eq_of_perm_of_sorted (r := pyStrLe) ?_ ?_ ?_
    · have p1 : ((sortSpecs s1).map fun sp => pyrepr sp.key).Perm
          (s1.map fun sp => pyrepr sp.key) :=
        (List.perm_insertionSort specLe s1).map _
      have p2 : ((sortSpecs s2).map fun sp => pyrepr sp.key).Perm
          (s2.map fun sp => pyrepr sp.key) :=
        (List.perm_insertionSort specLe s2).map _
      have pm : (s1.map fun sp => pyrepr sp.key).Perm
          (s2.map fun sp => pyrepr sp.key) := by
        have e1 : (s1.map fun sp => pyrepr sp.key) = (s1.map InputSpec.key).map pyrepr := by
          simp [List.map_map, Function.comp_def]
        have e2 : (s2.map fun sp => pyrepr sp.key) = (s2.map InputSpec.key).map pyrepr := by
          simp [List.map_map, Function.comp_def]
        rw [e1, e2]
        exact hperm.map pyrepr
      exact p1.trans (pm.trans p2.symm)
    · exact List.Pairwise.map _ (fun _ _ hr => hr) (List.sorted_insertionSort specLe s1)
    · exact List.Pairwise.map _ (fun _ _ hr => hr) (List.sorted_insertionSort specLe s2)
  have hcanon : pyrepr (PyObj.tuple (PyList.ofList ((sortSpecs s1).map InputSpec.key))) =
      pyrepr (PyObj.tuple (PyList.ofList ((sortSpecs s2).map InputSpec.key))) := by
    apply tupleRepr_congr
    rw [← hmm s1, ← hmm s2]
    exact hkey
  simp only [Node.genhash]
  rw [hcanon]

/-- Witness for C1: the two-spec table in both declaration orders hashes to
the same identity string. -/
theorem claim_C1_witness :
    Node.genhash [⟨"a", .plain (.int 1), false⟩, ⟨"b", .plain (.str "x"), true⟩] =
      Node.genhash [⟨"b", .plain (.str "x"), true⟩, ⟨"a", .plain (.int 1), false⟩] :=
  claim_C1 _ _ (by decide)

/-- Right cancellation of string concatenation. -/
theorem strAppendCancel (a b c : String) (h : a ++ c = b ++ c) : a = b := by
  have h2 : a.data ++ c.data = b.data ++ c.data := by
    rw [← String.data_append, ← String.data_append, h]
  exact String.ext (List.append_cancel_right h2)

/-- The first component of any `InputSpec.key` tuple is the spec's name. -/
theorem keyName_key (s : InputSpec) : keyName s.key = some s.name := rfl

/-- Characterization of a successful `cloneSpecsList` run: same length, same
names in the same order, and pointwise either the original spec kept (no
override for its name) or the override value wrapped in. -/
theorem cloneSpecsList_spec (st : St) (kw : List (String × NodeOrObj)) :
    ∀ (specs specs2 : List InputSpec),
    cloneSpecsList st kw specs = .ok specs2 →
    specs2.length = specs.length ∧
    specs2.map InputSpec.name = specs.map InputSpec.name ∧
    ∀ (i : Nat) (s s2 : InputSpec), specs[i]? = some s → specs2[i]? = some s2 →
      s2.name = s.name ∧ s2.foreach = s.foreach ∧
      (kw.lookup s.name = Option.none → s2 = s) ∧
      (∀ w, kw.lookup s.name = some w → wrapValue st w = .ok s2.value)
  | [], specs2, h => by
      rw [cloneSpecsList, Except.ok.injEq] at h
      subst h
      refine ⟨rfl, rfl, ?_⟩
      intro i s s2 hs _
      rw [List.getElem?_nil] at hs
      exact absurd hs (by simp)
  | s :: rest, specs2, h => by
      rw [cloneSpecsList] at h
      cases hlk : kw.lookup s.name with
      | none =>
        simp only [hlk] at h
        cases hrest : cloneSpecsList st kw rest with
        | error e =>
          simp only [hrest] at h
          exact absurd h (by simp)
        | ok r2 =>
          simp only [hrest] at h
          rw [Except.ok.injEq] at h
          subst h
          obtain ⟨hlen, hnames, hpt⟩ := cloneSpecsList_spec st kw rest r2 hrest
          refine ⟨by simp [hlen], by simp [hnames], ?_⟩
          intro i s0 s2 hs0 hs2
          match i with
          | 0 =>
            rw [List.getElem?_cons_zero] at hs0 hs2
            injection hs0 with hs0
            injection hs2 with hs2
            subst hs0
            subst hs2
            refine ⟨rfl, rfl, fun _ => rfl, fun w hw => ?_⟩
            rw [hlk] at hw
            exact absurd hw (by simp)
          | i + 1 =>
            rw [List.getElem?_cons_succ] at hs0 hs2
            exact hpt i s0 s2 hs0 hs2
      | some v =>
        simp only [hlk] at h
        rw [InputSpec.cloneSpec] at h
        cases hw : wrapValue st v with
        | error e =>
          simp only [hw] at h
          exact absurd h (by simp)
        | ok val =>
          simp only [hw] at h
          cases hrest : cloneSpecsList st kw rest with
          | error e =>
            simp only [hrest] at h
            exact absurd h (by simp)
          | ok r2 =>
            simp only [hrest] at h
            rw [Except.ok.injEq] at h
            subst h
            obtain ⟨hlen, hnames, hpt⟩ := cloneSpecsList_spec st kw rest r2 hrest
            refine ⟨by simp [hlen], by simp [hnames], ?_⟩
            intro i s0 s2 hs0 hs2
            match i with
            | 0 =>
              rw [List.getElem?_cons_zero] at hs0 hs2
              injection hs0 with hs0
              injection hs2 with hs2
              subst hs0
              subst hs2
              refine ⟨rfl, rfl, fun hc => ?_, fun w hw0 => ?_⟩
              · rw [hlk] at hc
                exact absurd hc (by simp)
              · rw [hlk] at hw0
                injection hw0 with hw0
                subst hw0
                exact hw
            | i + 1 =>
              rw [List.getElem?_cons_succ] at hs0 hs2
              exact hpt i s0 s2 hs0 hs2

/-- Inversion of a successful `nodeInit` run: the fresh id is the old registry
length, and the node stored there carries exactly the constructor-derived
fields (`_key` never set, version as passed, name/namespace/fullname derived
from the function when not overridden, group recomputed from the foreach
flags when not given explicitly). -/
theorem nodeInit_inv (st : St) (func : FuncMeta) (schema hs : Option PyObj)
    (ver : Option Int) (na ns : Option String) (specsArg : Option (List InputSpec))
    (ga : Option GroupV) (nid : Nat) (st2 : St)
    (h : nodeInit st func schema hs ver na ns specsArg ga = .ok (nid, st2)) :
    nid = st.length ∧ ∃ nd2, st2[nid]? = some nd2 ∧
      nd2.func = func ∧ nd2.version = ver ∧
      nd2.name = na.getD func.fname ∧ nd2.namespc = ns.getD func.fmodule ∧
      nd2.fullname = (if ns.getD func.fmodule = "" then na.getD func.fname
        else ns.getD func.fmodule ++ ":" ++ na.getD func.fname) ∧
      nd2.specs = specsArg.getD [] ∧
      nd2.specs_hash = Node.genhash (specsArg.getD []) ∧
      nd2.keyOverride = Option.none ∧
      nd2.group = (match ga with
        | some g => g
        | Option.none =>
          if (specsArg.getD []).any InputSpec.foreach then GroupV.gtrue
          else GroupV.gfalse) := by
  rw [nodeInit.eq_def] at h
  simp only at h
  split at h
  · exact absurd h (by simp)
  rename_i extra hcol
  split at h
  · exact absurd h (by simp)
  rename_i st1 hreg1
  split at h
  · exact absurd h (by simp)
  rename_i st2x hreg2
  rw [Except.ok.injEq, Prod.mk.injEq] at h
  obtain ⟨hnid, hst2⟩ := h
  subst hst2
  subst hnid
  refine ⟨rfl, ?_⟩
  have hstab1 := regConsumers_stable st.length _ _ _ hreg1
  have hstab2 := regDependent_stable st.length _ _ _ hreg2
  have h2 := (hstab2 st.length).1
  rw [(hstab1 st.length).1, List.getElem?_concat_length] at h2
  rcases Option.map_eq_some'.mp h2 with ⟨nd2v, hnd2, hcv⟩
  obtain ⟨hf, hv, hn, hns, hfn, hsh, _, _, hsp, hgr, hko, _, _⟩ := coreView_eq hcv
  refine ⟨nd2v, hnd2, hf, hv, hn, hns, hfn, hsp, hsh, hko, ?_⟩
  cases ga with
  | some g => exact hgr
  | none => exact hgr

/-- C10: whatever explicit group marker, version, name or namespace the
original node was constructed with, `Node.clone` does not carry them over:
the clone's version is `None`, its name and namespace are re-derived from the
wrapped function, and its group is recomputed solely from the foreach flags
of its resulting specs. -/
theorem claim_C10 (st : St) (nid : Nat) (nd : NodeData) (kw : List (String × NodeOrObj))
    (nid2 : Nat) (st2 : St) (hnd : st[nid]? = some nd)
    (hok : cloneNode st nid kw = .ok (nid2, st2)) :
    ∃ nd2, st2[nid2]? = some nd2 ∧
      nd2.version = Option.none ∧
      nd2.name = nd.func.fname ∧
      nd2.namespc = nd.func.fmodule ∧
      nd2.group = (if nd2.specs.any InputSpec.foreach then GroupV.gtrue
        else GroupV.gfalse) := by
  rw [cloneNode] at hok
  have hg : getNode st nid = .ok nd := getNode_ok.mpr hnd
  simp only [hg] at hok
  cases hcs : cloneSpecsList st kw nd.specs with
  | error e =>
    simp only [hcs] at hok
    exact absurd hok (by simp)
  | ok specs2 =>
    simp only [hcs] at hok
    by_cases hall : kw.all (fun q => nd.specs.any (fun s => s.name == q.1)) = true
    · rw [if_pos hall] at hok
      obtain ⟨_, nd2, hnd2, _, hv, hn, hns, _, hsp, _, _, hgr⟩ :=
        nodeInit_inv _ _ _ _ _ _ _ _ _ _ _ hok
      have hsp2 : nd2.specs = specs2 := hsp
      refine ⟨nd2, hnd2, hv, hn, hns, ?_⟩
      rw [hsp2]
      exact hgr
    · rw [if_neg hall] at hok
      exact absurd hok (by simp)

/-- Witness for C10: a node constructed with explicit version 3, name
`cname`, namespace `cns` and the `ondemand` group, cloned with no overrides,
yields a clone with version `None`, the function-derived name `f2` and
namespace `m`, and group `True` recomputed from the foreach flags. -/
theorem claim_C10_witness :
    stCustom[0]? = some ndCustom0 ∧
    ndCustom0.version = some 3 ∧ ndCustom0.name = "cname" ∧ ndCustom0.namespc = "cns" ∧
    ndCustom0.group = GroupV.ondemand ∧
    cloneNode stCustom 0 [] = .ok (1, stCustomClone) ∧
    stCustomClone[1]? = some ndCClone1 ∧
    ndCClone1.version = Option.none ∧ ndCClone1.name = "f2" ∧ ndCClone1.namespc = "m" ∧
    ndCClone1.group = GroupV.gtrue := by
  have hnd : stCustom[0]? = some ndCustom0 := rfl
  have hok : cloneNode stCustom 0 [] = .ok (1, stCustomClone) := rfl
  obtain ⟨nd2, hnd2, hv, hn, hns, hgr⟩ := claim_C10 stCustom 0 ndCustom0 [] 1 stCustomClone
    hnd hok
  have hcl : stCustomClone[1]? = some ndCClone1 := rfl
  rw [hcl] at hnd2
  injection hnd2 with hnd2
  subst hnd2
  exact ⟨hnd, rfl, rfl, rfl, rfl, hok, hcl, hv, hn.trans rfl, hns.trans rfl,
    hgr.trans (by decide)⟩

/-- C9: `Node.clone` (first conjunct) never succeeds when some override key
matches no existing spec name; (second conjunct) on success the clone's spec
table has, position by position, the original's names and foreach flags, each
non-overridden spec kept unchanged (hence with the same key) and each
overridden spec's value replaced by the wrap of the override (a `StreamSpec`
when the override is a node); the clone's identity hash is the genhash of its
resulting specs, it differs from the original's identity exactly when the
genhashes differ (for an original with no `_key` override, function-derived
fullname and consistent stored hash), and an overridden spec whose key
differs makes the clone's spec-key multiset differ from the original's (for
distinct original spec names). -/
theorem claim_C9 (st : St) (nid : Nat) (nd : NodeData) (kw : List (String × NodeOrObj))
    (hnd : st[nid]? = some nd) :
    ((∃ p ∈ kw, ∀ s ∈ nd.specs, s.name ≠ p.1) →
      ∀ (v : Nat × St), cloneNode st nid kw ≠ .ok v) ∧
    (∀ (nid2 : Nat) (st2 : St), cloneNode st nid kw = .ok (nid2, st2) →
      ∃ nd2, st2[nid2]? = some nd2 ∧
        nd2.specs.length = nd.specs.length ∧
        (∀ (i : Nat) (s s2 : InputSpec), nd.specs[i]? = some s → nd2.specs[i]? = some s2 →
          s2.name = s.name ∧ s2.foreach = s.foreach ∧
          (kw.lookup s.name = Option.none → s2 = s) ∧
          (∀ w, kw.lookup s.name = some w → wrapValue st w = .ok s2.value)) ∧
        nd2.specs_hash = Node.genhash nd2.specs ∧
        (nd.keyOverride = Option.none →
          nd.fullname = (if nd.func.fmodule = "" then nd.func.fname
            else nd.func.fmodule ++ ":" ++ nd.func.fname) →
          nd.specs_hash = Node.genhash nd.specs →
          (nd2.key ≠ nd.key ↔ Node.genhash nd2.specs ≠ Node.genhash nd.specs)) ∧
        ((nd.specs.map InputSpec.name).Nodup →
          ∀ (i : Nat) (s s2 : InputSpec), nd.specs[i]? = some s → nd2.specs[i]? = some s2 →
            s2.key ≠ s.key →
            ¬ (nd2.specs.map InputSpec.key).Perm (nd.specs.map InputSpec.key))) := by
  have hg : getNode st nid = .ok nd := getNode_ok.mpr hnd
  constructor
  · rintro ⟨p, hp, hpn⟩ v hok
    rw [cloneNode] at hok
    simp only [hg] at hok
    cases hcs : cloneSpecsList st kw nd.specs with
    | error e =>
      simp only [hcs] at hok
      exact absurd hok (by simp)
    | ok specs2 =>
      simp only [hcs] at hok
      have hne : ¬ (kw.all (fun q => nd.specs.any (fun s => s.name == q.1)) = true) := by
        intro hc
        rcases List.any_eq_true.mp (List.all_eq_true.mp hc p hp) with ⟨s, hs, hsn⟩
        exact hpn s hs (by simpa using hsn)
      rw [if_neg hne] at hok
      exact absurd hok (by simp)
  · intro nid2 st2 hok
    rw [cloneNode] at hok
    simp only [hg] at hok
    cases hcs : cloneSpecsList st kw nd.specs with
    | error e =>
      simp only [hcs] at hok
      exact absurd hok (by simp)
    | ok specs2 =>
      simp only [hcs] at hok
      by_cases hall : kw.all (fun q => nd.specs.any (fun s => s.name == q.1)) = true
      · rw [if_pos hall] at hok
        obtain ⟨_, nd2, hnd2, hfu, _, _, _, hfn, hsp, hsh, hko, _⟩ :=
          nodeInit_inv _ _ _ _ _ _ _ _ _ _ _ hok
        have hsp2 : nd2.specs = specs2 := hsp
        have hsh2 : nd2.specs_hash = Node.genhash nd2.specs := by
          rw [hsp2]
          exact hsh
        obtain ⟨hlen, _, hpt⟩ := cloneSpecsList_spec st kw nd.specs specs2 hcs
        refine ⟨nd2, hnd2, ?_, ?_, hsh2, ?_, ?_⟩
        · rw [hsp2]
          exact hlen
        · intro i s s2 h1 h2
          rw [hsp2] at h2
          exact hpt i s s2 h1 h2
        · intro hkoN hfnN hhashN
          have hfn2 : nd2.fullname = (if nd.func.fmodule = "" then nd.func.fname
              else nd.func.fmodule ++ ":" ++ nd.func.fname) := hfn
          have hkey2 : nd2.key = Node.genhash nd2.specs ++ "-" ++ nd2.fullname := by
            rw [NodeData.key]
            simp only [hko, hsh2]
          have hkey1 : nd.key = Node.genhash nd.specs ++ "-" ++ nd2.fullname := by
            rw [NodeData.key]
            simp only [hkoN, hhashN]
            rw [hfnN, ← hfn2]
          rw [hkey2, hkey1]
          constructor
          · intro hkne heq
            exact hkne (by rw [heq])
          · intro hgne hkeq
            apply hgne
            exact strAppendCancel _ _ _ (strAppendCancel _ _ _ hkeq)
        · intro hnodup i s s2 hsi hs2i hkne hperm
          have hs2mem : s2 ∈ nd2.specs := List.mem_iff_getElem?.mpr ⟨i, hs2i⟩
          have hkmem : s2.key ∈ nd2.specs.map InputSpec.key :=
            List.mem_map_of_mem _ hs2mem
          rcases List.mem_map.mp (hperm.mem_iff.mp hkmem) with ⟨s3, hs3mem, hs3k⟩
          have hname3 : s3.name = s2.name := by
            have h5 := congrArg keyName hs3k
            rw [keyName_key, keyName_key] at h5
            injection h5
          have hname2 : s2.name = s.name :=
            (hpt i s s2 hsi (by rw [← hsp2]; exact hs2i)).1
          have hsmem : s ∈ nd.specs := List.mem_iff_getElem?.mpr ⟨i, hsi⟩
          have hs3eq : s3 = s :=
            List.inj_on_of_nodup_map hnodup hs3mem hsmem (hname3.trans hname2)
          apply hkne
          rw [← hs3k, hs3eq]
      · rw [if_neg hall] at hok
        exact absurd hok (by simp)

set_option maxRecDepth 8000 in
/-- Witness for C9: cloning the `stAxes` node with an unknown override key
`zz` never succeeds, while cloning it with `a` overridden to 99 yields node 1
whose identity differs from the original's and whose spec-key multiset
differs from the original's. -/
theorem claim_C9_witness :
    stAxes[0]? = some ndAxes0 ∧
    (∀ (v : Nat × St), cloneNode stAxes 0 [("zz", NodeOrObj.obj (PyObj.int 1))] ≠ .ok v) ∧
    cloneNode stAxes 0 kwOver = .ok (1, stClone) ∧
    stClone[1]? = some ndClone1 ∧
    ndClone1.key ≠ ndAxes0.key ∧
    ¬ (ndClone1.specs.map InputSpec.key).Perm (ndAxes0.specs.map InputSpec.key) := by
  have hnd : stAxes[0]? = some ndAxes0 := rfl
  have hfail := (claim_C9 stAxes 0 ndAxes0 [("zz", NodeOrObj.obj (PyObj.int 1))] hnd).1
    (by decide)
  have hok : cloneNode stAxes 0 kwOver = .ok (1, stClone) := rfl
  obtain ⟨nd2, hnd2, _, _, _, hbridge, hperm⟩ :=
    (claim_C9 stAxes 0 ndAxes0 kwOver hnd).2 1 stClone hok
  have hcl : stClone[1]? = some ndClone1 := rfl
  rw [hcl] at hnd2
  injection hnd2 with hnd2
  subst hnd2
  have hkne : ndClone1.key ≠ ndAxes0.key := (hbridge rfl rfl rfl).mpr (by decide)
  have hnp : ¬ (ndClone1.specs.map InputSpec.key).Perm (ndAxes0.specs.map InputSpec.key) :=
    hperm (by decide) 0 ⟨"a", .plain (.int 7), false⟩ ⟨"a", .plain (.int 99), false⟩
      rfl rfl (by decide)
  exact ⟨hnd, hfail, hok, hcl, hkne, hnp⟩

end Marv
